import Mathlib

/-!
DlColor (display_list/dl_color.h)

A shallow embedding of the packed 32-bit ARGB colour type of the display list,
followed by the properties its specification states about it.

Machine integers are natural numbers with explicit reduction modulo `2 ^ 32`.
`DlScalar` is single-precision IEEE 754 arithmetic (round to nearest, ties to
even), modelled exactly on integers: a finite value is `m * 2 ^ e`.
-/

namespace flutter

/-! ## Single-precision scalars -/

/-- Left shift by a signed amount: `n * 2 ^ k` for `0 ≤ k`, and `n` for `k < 0`. -/
def shl (n : Nat) (k : Int) : Nat := n * 2 ^ k.toNat

/-- Position of the highest set bit of `n` (`0` for `n ≤ 1`), by repeated halving;
the first argument bounds the number of halvings and is passed as `n`. -/
def ilog2 : Nat → Nat → Nat
  | 0, _ => 0
  | fuel + 1, n => if 2 ≤ n then ilog2 fuel (n / 2) + 1 else 0

/-- Modelled from the spec: `DlScalar` is declared in
`display_list/geometry/dl_geometry_types.h`, which is not part of the sources at
hand; the spec calls it a normalized float and `toF` multiplies by the `float`
constant `1.0f / 255`, so it is taken to be IEEE 754 binary32.
`fin m e` is the real number `m * 2 ^ e`; the two zeros are not distinguished. -/
inductive DlScalar where
  | fin (m : Int) (e : Int)
  | inf (neg : Bool)
  | nan
deriving Repr, DecidableEq

/-- Signed integer from a sign flag and a magnitude. -/
def sgn (neg : Bool) (n : Nat) : Int := if neg then -(n : Int) else (n : Int)

/-- The integer nearest to `num / den` (`0 < den`), ties going to the even one. -/
def nearestEven (num den : Nat) : Nat :=
  let qt := num / den
  let r := num % den
  if 2 * r < den then qt
  else if den < 2 * r then qt + 1
  else if qt % 2 = 0 then qt else qt + 1

/-- The exponent `k` with `2 ^ k ≤ n / d < 2 ^ (k + 1)`, for `0 < n` and `0 < d`:
the difference `l` of the bit positions satisfies `2 ^ (l - 1) < n / d < 2 ^ (l + 1)`,
and one comparison decides between `l` and `l - 1`. -/
def floorLog2 (n d : Nat) : Int :=
  let l : Int := (ilog2 n n : Int) - (ilog2 d d : Int)
  if shl d l ≤ shl n (-l) then l else l - 1

/-- Correct rounding to binary32 of the exact value `± (n / d) * 2 ^ e` (`0 < d`):
round to nearest, ties to even, with 24 significant bits, gradual underflow
(smallest quantum `2 ^ (-149)`) and overflow to infinity from `2 ^ 128` on.
The result is `± m * 2 ^ q`, where `q` is the quantum and `m` the nearest integer
to the exact value divided by the quantum. -/
def roundFrac (neg : Bool) (n d : Nat) (e : Int) : DlScalar :=
  if n = 0 then DlScalar.fin 0 0 else
  let q : Int := max (floorLog2 n d + e - 23) (-149)
  let m := nearestEven (shl n (e - q)) (shl d (q - e))
  if 0 ≤ q ∧ 2 ^ 128 ≤ m * 2 ^ q.toNat then DlScalar.inf neg
  else DlScalar.fin (sgn neg m) q

namespace DlScalar

/-- Conversion of an integer to `float`. -/
def ofInt (i : Int) : DlScalar := roundFrac (decide (i < 0)) i.natAbs 1 0

/-- The `float` product `a * b`. -/
def mul : DlScalar → DlScalar → DlScalar
  | fin m1 e1, fin m2 e2 =>
      roundFrac (decide (m1 < 0) != decide (m2 < 0)) (m1.natAbs * m2.natAbs) 1 (e1 + e2)
  | fin m _, inf neg => if m = 0 then nan else inf (decide (m < 0) != neg)
  | inf neg, fin m _ => if m = 0 then nan else inf (neg != decide (m < 0))
  | inf n1, inf n2 => inf (n1 != n2)
  | _, _ => nan

/-- The `float` quotient `a / b`. -/
def div : DlScalar → DlScalar → DlScalar
  | fin m1 e1, fin m2 e2 =>
      if m2 = 0 then (if m1 = 0 then nan else inf (decide (m1 < 0)))
      else roundFrac (decide (m1 < 0) != decide (m2 < 0)) m1.natAbs m2.natAbs (e1 - e2)
  | fin _ _, inf _ => fin 0 0
  | inf neg, fin m _ => inf (neg != decide (m < 0))
  | _, _ => nan

/-- The comparison `a <= b`; it is false as soon as one side is a NaN. -/
def le : DlScalar → DlScalar → Bool
  | fin m1 e1, fin m2 e2 =>
      decide (m1 * 2 ^ (e1 - min e1 e2).toNat ≤ m2 * 2 ^ (e2 - min e1 e2).toNat)
  | fin _ _, inf neg => !neg
  | inf neg, fin _ _ => neg
  | inf n1, inf n2 => n1 || !n2
  | _, _ => false

/-- The C function `round`: the nearest integer, halfway cases away from zero. -/
def round : DlScalar → DlScalar
  | fin m e =>
      if 0 ≤ e then fin (m * 2 ^ e.toNat) 0
      else fin (sgn (decide (m < 0))
        ((2 * m.natAbs + 2 ^ (-e).toNat) / (2 * 2 ^ (-e).toNat))) 0
  | x => x

/-- Conversion of a `float` to `uint8_t`: the value is truncated toward zero, and
the conversion is undefined (`none`) when the truncated value is not in
`0 .. 255`, or for an infinity or a NaN. -/
def toUInt8 : DlScalar → Option Nat
  | fin m e =>
      let t : Int :=
        if 0 ≤ e then m * 2 ^ e.toNat
        else sgn (decide (m < 0)) (m.natAbs / 2 ^ (-e).toNat)
      if 0 ≤ t ∧ t ≤ 255 then some t.toNat else none
  | _ => none

/-- The rational value of a finite scalar (`0` for infinities and NaN). -/
def toRat : DlScalar → ℚ
  | fin m e => (m : ℚ) * (2 : ℚ) ^ e
  | _ => 0

/-- Finite scalars. -/
def isFinite : DlScalar → Bool
  | fin _ _ => true
  | _ => false

/-- Finite scalars that are not negative. -/
def NonNeg : DlScalar → Prop
  | fin m _ => 0 ≤ m
  | _ => False

/-- Finite scalars in the interval `[0, 1]`. -/
def InUnit (s : DlScalar) : Prop := s.NonNeg ∧ s.toRat ≤ 1

/-- Conversion of a `float` to `uint8_t` as a build of the code performs it. Where C++
defines the conversion (see `toUInt8`) the result is that value. Elsewhere the language
leaves the result to the compiler and the hardware: it is taken from the parameter
`conv`, the underlying numeric conversion, of which the low 8 bits are kept. No value
is rejected and none is clamped. -/
def toUInt8On (conv : DlScalar → Nat) (x : DlScalar) : Nat :=
  match x.toUInt8 with
  | some n => n
  | none => conv x % 256

/-- An example of an underlying conversion: truncation toward zero followed by
reduction modulo `2 ^ 32` (wrap-around), and `0` for an infinity or a NaN. -/
def wrapConv : DlScalar → Nat
  | fin m e =>
      let t : Int :=
        if 0 ≤ e then m * 2 ^ e.toNat
        else sgn (decide (m < 0)) (m.natAbs / 2 ^ (-e).toNat)
      (t % 4294967296).toNat
  | _ => 0

end DlScalar

/-- `Rounds x y` states that `y` is a binary32 rounding to nearest of the exact value
`x` (with `0 ≤ x`): for a quantum `2 ^ q` that fits the size of `x`, `y` is a multiple
of the quantum within half a quantum of `x`, and no multiple of the quantum lies
strictly between `x` and `y`. -/
def Rounds (x y : ℚ) : Prop :=
  ∃ (q : Int) (m : Nat),
    -149 ≤ q ∧ (q = -149 ∨ (2 : ℚ) ^ (q + 23) ≤ x) ∧ x < 2 ^ (q + 24) ∧
    y = (m : ℚ) * 2 ^ q ∧ |y - x| ≤ 2 ^ q / 2 ∧
    (∀ N : Nat, x ≤ (N : ℚ) * 2 ^ q → y ≤ (N : ℚ) * 2 ^ q) ∧
    (∀ N : Nat, (N : ℚ) * 2 ^ q ≤ x → (N : ℚ) * 2 ^ q ≤ y)

/-! ## The colour type -/

/-- A colour: the `uint32_t` member `argb_`. -/
structure DlColor where
  argb_ : Nat
  lt : argb_ < 4294967296
deriving DecidableEq

namespace DlColor

/-- Constructor `DlColor(uint32_t argb)`; the argument is converted to `uint32_t`. -/
def ofUInt32 (argb : Nat) : DlColor :=
  ⟨argb % 4294967296, Nat.mod_lt _ (by decide)⟩

/-- Default constructor `DlColor()`. -/
def default : DlColor := ofUInt32 0xFF000000

/-- Private helper `toF`. -/
def toF (comp : Nat) : DlScalar :=
  (DlScalar.ofInt comp).mul ((DlScalar.ofInt 1).div (DlScalar.ofInt 255))

/-- Private helper `toC`. -/
def toC (fComp : DlScalar) : Option Nat :=
  (fComp.mul (DlScalar.ofInt 255)).round.toUInt8

/-- Factory `ARGB(a, r, g, b)`. -/
def ARGB (a r g b : DlScalar) : Option DlColor := do
  let ca ← toC a
  let cr ← toC r
  let cg ← toC g
  let cb ← toC b
  pure (ofUInt32 (ca <<< 24 ||| cr <<< 16 ||| cg <<< 8 ||| cb))

/-- Factory `RGBA(r, g, b, a)`. -/
def RGBA (r g b a : DlScalar) : Option DlColor := ARGB a r g b

def toAlpha (opacity : DlScalar) : Option Nat := toC opacity

def toOpacity (alpha : Nat) : DlScalar := toF alpha

def kTransparent : DlColor := ofUInt32 0x00000000
def kBlack : DlColor := ofUInt32 0xFF000000
def kWhite : DlColor := ofUInt32 0xFFFFFFFF
def kRed : DlColor := ofUInt32 0xFFFF0000
def kGreen : DlColor := ofUInt32 0xFF00FF00
def kBlue : DlColor := ofUInt32 0xFF0000FF
def kCyan : DlColor := ofUInt32 0xFF00FFFF
def kMagenta : DlColor := ofUInt32 0xFFFF00FF
def kYellow : DlColor := ofUInt32 0xFFFFFF00
def kDarkGrey : DlColor := ofUInt32 0xFF3F3F3F
def kMidGrey : DlColor := ofUInt32 0xFF808080
def kLightGrey : DlColor := ofUInt32 0xFFC0C0C0
def kAliceBlue : DlColor := ofUInt32 0xFFF0F8FF
def kFuchsia : DlColor := ofUInt32 0xFFFF00FF
def kMaroon : DlColor := ofUInt32 0xFF800000
def kSkyBlue : DlColor := ofUInt32 0xFF87CEEB
def kCornflowerBlue : DlColor := ofUInt32 0xFF6495ED
def kCrimson : DlColor := ofUInt32 0xFFFF5733
def kAqua : DlColor := ofUInt32 0xFF00FFFF
def kOrange : DlColor := ofUInt32 0xFFFFA500
def kPurple : DlColor := ofUInt32 0xFF800080
def kLimeGreen : DlColor := ofUInt32 0xFF32CD32
def kGreenYellow : DlColor := ofUInt32 0xFFADFF2F
def kDarkMagenta : DlColor := ofUInt32 0xFF8B008B
def kOrangeRed : DlColor := ofUInt32 0xFFFF4500

def getAlpha (c : DlColor) : Nat := c.argb_ >>> 24
def getRed (c : DlColor) : Nat := (c.argb_ >>> 16) &&& 0xFF
def getGreen (c : DlColor) : Nat := (c.argb_ >>> 8) &&& 0xFF
def getBlue (c : DlColor) : Nat := c.argb_ &&& 0xFF

def isOpaque (c : DlColor) : Bool := c.getAlpha == 0xFF
def isTransparent (c : DlColor) : Bool := c.getAlpha == 0

def getAlphaF (c : DlColor) : DlScalar := toF c.getAlpha
def getRedF (c : DlColor) : DlScalar := toF c.getRed
def getGreenF (c : DlColor) : DlScalar := toF c.getGreen
def getBlueF (c : DlColor) : DlScalar := toF c.getBlue

/-- Method `premultipliedArgb`; the result is a `uint32_t`. -/
def premultipliedArgb (c : DlColor) : Option Nat :=
  if c.isOpaque then some c.argb_
  else do
    let f := c.getAlphaF
    let r ← toC (c.getRedF.mul f)
    let g ← toC (c.getGreenF.mul f)
    let b ← toC (c.getBlueF.mul f)
    pure (((c.argb_ &&& 0xFF000000) ||| r <<< 16 ||| g <<< 8 ||| b) % 4294967296)

/-- Method `withAlpha(uint8_t alpha)`. -/
def withAlpha (c : DlColor) (alpha : Nat) : DlColor :=
  ofUInt32 ((c.argb_ &&& 0x00FFFFFF) ||| (alpha <<< 24))

/-- Method `withRed(uint8_t red)`. -/
def withRed (c : DlColor) (red : Nat) : DlColor :=
  ofUInt32 ((c.argb_ &&& 0xFF00FFFF) ||| (red <<< 16))

/-- Method `withGreen(uint8_t green)`. -/
def withGreen (c : DlColor) (green : Nat) : DlColor :=
  ofUInt32 ((c.argb_ &&& 0xFFFF00FF) ||| (green <<< 8))

/-- Method `withBlue(uint8_t blue)`. -/
def withBlue (c : DlColor) (blue : Nat) : DlColor :=
  ofUInt32 ((c.argb_ &&& 0xFFFFFF00) ||| (blue <<< 0))

/-- Method `modulateOpacity`; the rounded product is converted to the `uint8_t`
parameter of `withAlpha`. -/
def modulateOpacity (c : DlColor) (opacity : DlScalar) : Option DlColor :=
  if opacity.le (DlScalar.ofInt 0) then some (c.withAlpha 0)
  else if (DlScalar.ofInt 1).le opacity then some c
  else (((DlScalar.ofInt c.getAlpha).mul opacity).round.toUInt8).map c.withAlpha

def argb (c : DlColor) : Nat := c.argb_

/-- The `operator==` against another colour. -/
def eq (c other : DlColor) : Bool := c.argb_ == other.argb_

/-- The `operator!=` against another colour. -/
def ne (c other : DlColor) : Bool := c.argb_ != other.argb_

/-- The `operator==` against a raw `uint32_t`. -/
def eqRaw (c : DlColor) (other : Nat) : Bool := c.argb_ == other

/-- The `operator!=` against a raw `uint32_t`. -/
def neRaw (c : DlColor) (other : Nat) : Bool := c.argb_ != other

/-- The general expression of `premultipliedArgb`, the one evaluated for a colour that
is not opaque, here evaluated for any colour (no `isOpaque` fast path). -/
def premultipliedArgbGeneral (c : DlColor) : Option Nat := do
  let f := c.getAlphaF
  let r ← toC (c.getRedF.mul f)
  let g ← toC (c.getGreenF.mul f)
  let b ← toC (c.getBlueF.mul f)
  pure (((c.argb_ &&& 0xFF000000) ||| r <<< 16 ||| g <<< 8 ||| b) % 4294967296)

/-- The general expression of `modulateOpacity`, `withAlpha(round(getAlpha() * opacity))`,
here evaluated for any factor (no saturating branches). -/
def modulateOpacityGeneral (c : DlColor) (opacity : DlScalar) : Option DlColor :=
  (((DlScalar.ofInt c.getAlpha).mul opacity).round.toUInt8).map c.withAlpha

/-- Private helper `toC`, with the conversion to `uint8_t` of a build (`toUInt8On`). -/
def toCOn (conv : DlScalar → Nat) (fComp : DlScalar) : Nat :=
  (fComp.mul (DlScalar.ofInt 255)).round.toUInt8On conv

/-- Factory `ARGB(a, r, g, b)`, with the conversion to `uint8_t` of a build. -/
def ARGBOn (conv : DlScalar → Nat) (a r g b : DlScalar) : DlColor :=
  ofUInt32 (toCOn conv a <<< 24 ||| toCOn conv r <<< 16 ||| toCOn conv g <<< 8 ||| toCOn conv b)

/-- Function `toAlpha`, with the conversion to `uint8_t` of a build. -/
def toAlphaOn (conv : DlScalar → Nat) (opacity : DlScalar) : Nat := toCOn conv opacity

/-- Method `modulateOpacity`, with the conversion to `uint8_t` of a build. -/
def modulateOpacityOn (c : DlColor) (conv : DlScalar → Nat) (opacity : DlScalar) : DlColor :=
  if opacity.le (DlScalar.ofInt 0) then c.withAlpha 0
  else if (DlScalar.ofInt 1).le opacity then c
  else c.withAlpha (((DlScalar.ofInt c.getAlpha).mul opacity).round.toUInt8On conv)

/-- `RoundedChannel x n` states how the byte `n` is obtained from the scalar `x` by
`toC`: `n` is `round(p)`, where `p` is the single-precision product `x * 255`, which
is within `2 ^ (-17)` of the exact product; so `n` is within `1 / 2 + 2 ^ (-17)` of
`x * 255`, and it is `round(x * 255)` whenever the product is exact. -/
def RoundedChannel (x : DlScalar) (n : Nat) : Prop :=
  toC x = some n ∧ n ≤ 255 ∧
  (n : Int) = ⌊(x.mul (DlScalar.ofInt 255)).toRat + 1 / 2⌋ ∧
  |(x.mul (DlScalar.ofInt 255)).toRat - x.toRat * 255| ≤ 1 / 2 ^ 17 ∧
  |(n : ℚ) - x.toRat * 255| ≤ 1 / 2 + 1 / 2 ^ 17 ∧
  ((x.mul (DlScalar.ofInt 255)).toRat = x.toRat * 255 → (n : Int) = ⌊x.toRat * 255 + 1 / 2⌋)

end DlColor

/-! ## Bit-level lemmas -/

theorem testBit_byte {v : Nat} (hv : v < 256) {i : Nat} (hi : 8 ≤ i) :
    v.testBit i = false :=
  Nat.testBit_lt_two_pow (lt_of_lt_of_le hv (by
    calc 256 = 2 ^ 8 := by norm_num
      _ ≤ 2 ^ i := Nat.pow_le_pow_right (by norm_num) hi))

/-- Reading back the byte at bit offset `s` after it was replaced by `v`. -/
theorem field_read (x v M s : Nat) (hv : v < 256) (hs : s + 8 ≤ 32)
    (hM : ∀ i, i < 8 → M.testBit (s + i) = false) :
    ((((x &&& M) ||| (v <<< s)) % 4294967296) >>> s) &&& 0xFF = v := by
  apply Nat.eq_of_testBit_eq
  intro i
  have m1 : (0xFF : Nat) = 2 ^ 8 - 1 := by norm_num
  have m3 : (4294967296 : Nat) = 2 ^ 32 := by norm_num
  rw [m1, m3]
  simp only [Nat.testBit_and, Nat.testBit_or, Nat.testBit_shiftLeft, Nat.testBit_shiftRight,
    Nat.testBit_mod_two_pow, Nat.testBit_two_pow_sub_one]
  by_cases h : i < 8
  · have e1 : s + i - s = i := by omega
    have e2 : s + i < 32 := by omega
    simp [h, e1, e2, hM i h]
  · simp [h, testBit_byte hv (i := i) (by omega)]

/-- Reading the byte at bit offset `t` after another byte, at offset `s`, was replaced. -/
theorem field_keep (x v M s t : Nat) (hv : v < 256) (ht : t + 8 ≤ 32)
    (hd : t + 8 ≤ s ∨ s + 8 ≤ t) (hM : ∀ i, i < 8 → M.testBit (t + i) = true) :
    ((((x &&& M) ||| (v <<< s)) % 4294967296) >>> t) &&& 0xFF = (x >>> t) &&& 0xFF := by
  apply Nat.eq_of_testBit_eq
  intro i
  have m1 : (0xFF : Nat) = 2 ^ 8 - 1 := by norm_num
  have m3 : (4294967296 : Nat) = 2 ^ 32 := by norm_num
  rw [m1, m3]
  simp only [Nat.testBit_and, Nat.testBit_or, Nat.testBit_shiftLeft, Nat.testBit_shiftRight,
    Nat.testBit_mod_two_pow, Nat.testBit_two_pow_sub_one]
  by_cases h : i < 8
  · have e2 : t + i < 32 := by omega
    rcases hd with hd | hd
    · have e3 : ¬ (s ≤ t + i) := by omega
      simp [h, e2, e3, hM i h]
    · have e3 : v.testBit (t + i - s) = false := testBit_byte hv (by omega)
      simp [h, e2, e3, hM i h]
  · simp [h]

theorem shr24_eq {y : Nat} (hy : y < 4294967296) : y >>> 24 = (y >>> 24) &&& 0xFF := by
  have m1 : (0xFF : Nat) = 2 ^ 8 - 1 := by norm_num
  rw [m1, Nat.and_pow_two_sub_one_eq_mod, Nat.shiftRight_eq_div_pow]
  omega

theorem and_FF (y : Nat) : y &&& 0xFF = y % 256 := by
  have m1 : (0xFF : Nat) = 2 ^ 8 - 1 := by norm_num
  rw [m1, Nat.and_pow_two_sub_one_eq_mod]

/-- The packed word `a << 24 | r << 16 | g << 8 | b` as a sum. -/
theorem pack_eq (a : Nat) {r g b : Nat} (hr : r < 256) (hg : g < 256) (hb : b < 256) :
    a <<< 24 ||| r <<< 16 ||| g <<< 8 ||| b
      = a * 16777216 + r * 65536 + g * 256 + b := by
  have h1 : 2 ^ 8 * g + b = 2 ^ 8 * g ||| b := Nat.mul_add_lt_is_or (by omega) g
  have h2 : 2 ^ 16 * r + (2 ^ 8 * g + b) = 2 ^ 16 * r ||| (2 ^ 8 * g + b) :=
    Nat.mul_add_lt_is_or (by omega) r
  have h3 : 2 ^ 24 * a + (2 ^ 16 * r + (2 ^ 8 * g + b))
      = 2 ^ 24 * a ||| (2 ^ 16 * r + (2 ^ 8 * g + b)) :=
    Nat.mul_add_lt_is_or (by omega) a
  rw [Nat.or_assoc, Nat.or_assoc, Nat.shiftLeft_eq, Nat.shiftLeft_eq, Nat.shiftLeft_eq,
    Nat.mul_comm a, Nat.mul_comm r, Nat.mul_comm g, ← h1, ← h2, ← h3]
  omega

namespace DlColor

theorem getAlpha_eq (c : DlColor) : c.getAlpha = c.argb_ / 16777216 := by
  unfold getAlpha
  rw [Nat.shiftRight_eq_div_pow]

theorem getRed_eq (c : DlColor) : c.getRed = c.argb_ / 65536 % 256 := by
  unfold getRed
  rw [and_FF, Nat.shiftRight_eq_div_pow]

theorem getGreen_eq (c : DlColor) : c.getGreen = c.argb_ / 256 % 256 := by
  unfold getGreen
  rw [and_FF, Nat.shiftRight_eq_div_pow]

theorem getBlue_eq (c : DlColor) : c.getBlue = c.argb_ % 256 := by
  unfold getBlue
  rw [and_FF]

theorem ext_argb {c d : DlColor} (h : c.argb_ = d.argb_) : c = d := by
  cases c
  cases d
  simp only [mk.injEq]
  exact h

end DlColor

/-! ## Rounding lemmas -/

theorem ilog2_spec : ∀ (fuel n : Nat), n ≤ fuel → 0 < n →
    2 ^ ilog2 fuel n ≤ n ∧ n < 2 ^ (ilog2 fuel n + 1)
  | 0, n, h, hn => by omega
  | fuel + 1, n, h, hn => by
    unfold ilog2
    split
    · rename_i h2
      have ih := ilog2_spec fuel (n / 2) (by omega) (by omega)
      obtain ⟨ih1, ih2⟩ := ih
      constructor
      · rw [pow_succ]; omega
      · rw [pow_succ]; omega
    · simp; omega

theorem shl_cast (n : Nat) (k : Int) : ((shl n k : Nat) : ℚ) = (n : ℚ) * 2 ^ k.toNat := by
  simp [shl]

theorem shl_pos {n : Nat} (hn : 0 < n) (k : Int) : 0 < shl n k := by
  unfold shl
  positivity

/-- The fraction `shl n k / shl d (-k)` is `(n / d) * 2 ^ k`. -/
theorem shl_div_shl (n d : Nat) (k : Int) (hd : 0 < d) :
    ((shl n k : Nat) : ℚ) / ((shl d (-k) : Nat) : ℚ) = (n : ℚ) / d * 2 ^ k := by
  have hd' : (d : ℚ) ≠ 0 := by positivity
  rw [shl_cast, shl_cast]
  rcases le_total 0 k with hk | hk
  · have h1 : (-k).toNat = 0 := by omega
    have h2 : (2 : ℚ) ^ k = 2 ^ k.toNat := by
      conv_lhs => rw [← Int.toNat_of_nonneg hk]
      rw [zpow_natCast]
    rw [h1, h2]
    field_simp
  · have h1 : k.toNat = 0 := by omega
    have h2 : (2 : ℚ) ^ k = (2 ^ (-k).toNat)⁻¹ := by
      have : k = -((-k).toNat : Int) := by omega
      conv_lhs => rw [this]
      rw [zpow_neg, zpow_natCast]
    rw [h1, h2]
    field_simp


theorem nearestEven_spec (num den : Nat) (hden : 0 < den) :
    2 * (nearestEven num den * den) ≤ 2 * num + den ∧
    2 * num ≤ 2 * (nearestEven num den * den) + den ∧
    (∀ N : Nat, num ≤ N * den → nearestEven num den ≤ N) ∧
    (∀ N : Nat, N * den ≤ num → N ≤ nearestEven num den) := by
  have hdm := Nat.div_add_mod num den
  have hr := Nat.mod_lt num hden
  have hup : ∀ N : Nat, num ≤ N * den → num / den ≤ N := by
    intro N hN
    have : num / den * den ≤ N * den := le_trans (Nat.div_mul_le_self num den) hN
    exact Nat.le_of_mul_le_mul_right this hden
  have hup1 : ∀ N : Nat, num ≤ N * den → 0 < num % den → num / den + 1 ≤ N := by
    intro N hN hpos
    have h1 : num / den * den < N * den := by
      have := Nat.div_mul_le_self num den
      have e : num / den * den = den * (num / den) := Nat.mul_comm _ _
      omega
    exact Nat.lt_of_mul_lt_mul_right h1
  have hlo : ∀ N : Nat, N * den ≤ num → N ≤ num / den := by
    intro N hN
    exact (Nat.le_div_iff_mul_le hden).mpr hN
  have e1 : (num / den + 1) * den = den * (num / den) + den := by ring
  have e0 : num / den * den = den * (num / den) := Nat.mul_comm _ _
  unfold nearestEven
  simp only []
  split_ifs with h1 h2 h3
  · refine ⟨by omega, by omega, hup, hlo⟩
  · refine ⟨by omega, by omega, fun N hN => hup1 N hN (by omega), fun N hN => ?_⟩
    have := hlo N hN; omega
  · refine ⟨by omega, by omega, hup, hlo⟩
  · refine ⟨by omega, by omega, fun N hN => hup1 N hN (by omega), fun N hN => ?_⟩
    have := hlo N hN; omega

theorem floorLog2_spec (n d : Nat) (hn : 0 < n) (hd : 0 < d) :
    (2 : ℚ) ^ floorLog2 n d ≤ (n : ℚ) / d ∧ (n : ℚ) / d < 2 ^ (floorLog2 n d + 1) := by
  obtain ⟨a1, a2⟩ := ilog2_spec n n le_rfl hn
  obtain ⟨b1, b2⟩ := ilog2_spec d d le_rfl hd
  have hdq : (0 : ℚ) < d := by exact_mod_cast hd
  have a1q : (2 : ℚ) ^ (ilog2 n n : Int) ≤ n := by
    rw [zpow_natCast]; exact_mod_cast a1
  have a2q : (n : ℚ) < 2 ^ ((ilog2 n n : Int) + 1) := by
    have : ((ilog2 n n : Int) + 1) = ((ilog2 n n + 1 : Nat) : Int) := by push_cast; rfl
    rw [this, zpow_natCast]; exact_mod_cast a2
  have b1q : (2 : ℚ) ^ (ilog2 d d : Int) ≤ d := by
    rw [zpow_natCast]; exact_mod_cast b1
  have b2q : (d : ℚ) < 2 ^ ((ilog2 d d : Int) + 1) := by
    have : ((ilog2 d d : Int) + 1) = ((ilog2 d d + 1 : Nat) : Int) := by push_cast; rfl
    rw [this, zpow_natCast]; exact_mod_cast b2
  have h2 : (0 : ℚ) < 2 := by norm_num
  have h2' : (2 : ℚ) ≠ 0 := by norm_num
  -- the comparison made by `floorLog2`
  have htest : shl d ((ilog2 n n : Int) - (ilog2 d d : Int))
        ≤ shl n (-((ilog2 n n : Int) - (ilog2 d d : Int)))
      ↔ (2 : ℚ) ^ ((ilog2 n n : Int) - (ilog2 d d : Int)) ≤ (n : ℚ) / d := by
    have hs := shl_div_shl n d (-((ilog2 n n : Int) - (ilog2 d d : Int))) hd
    rw [neg_neg] at hs
    have hpos : (0 : ℚ) < (shl d ((ilog2 n n : Int) - (ilog2 d d : Int)) : Nat) := by
      exact_mod_cast shl_pos hd _
    have hz : (0 : ℚ) < 2 ^ ((ilog2 n n : Int) - (ilog2 d d : Int)) := zpow_pos h2 _
    rw [← Nat.cast_le (α := ℚ), ← one_le_div hpos, hs, zpow_neg, ← div_eq_mul_inv,
      le_div_iff₀ hz, one_mul]
  -- upper and lower bounds of `n / d` from the bit positions
  have hub : (n : ℚ) / d < 2 ^ ((ilog2 n n : Int) - (ilog2 d d : Int) + 1) := by
    rw [div_lt_iff₀ hdq]
    calc (n : ℚ) < 2 ^ ((ilog2 n n : Int) + 1) := a2q
      _ = 2 ^ ((ilog2 n n : Int) - (ilog2 d d : Int) + 1) * 2 ^ (ilog2 d d : Int) := by
          rw [← zpow_add₀ h2']; congr 1; ring
      _ ≤ 2 ^ ((ilog2 n n : Int) - (ilog2 d d : Int) + 1) * d :=
          mul_le_mul_of_nonneg_left b1q (le_of_lt (zpow_pos h2 _))
  have hlb : (2 : ℚ) ^ ((ilog2 n n : Int) - (ilog2 d d : Int) - 1) ≤ (n : ℚ) / d := by
    rw [le_div_iff₀ hdq]
    calc (2 : ℚ) ^ ((ilog2 n n : Int) - (ilog2 d d : Int) - 1) * d
        ≤ 2 ^ ((ilog2 n n : Int) - (ilog2 d d : Int) - 1) * 2 ^ ((ilog2 d d : Int) + 1) :=
          mul_le_mul_of_nonneg_left (le_of_lt b2q) (le_of_lt (zpow_pos h2 _))
      _ = 2 ^ (ilog2 n n : Int) := by
          rw [← zpow_add₀ h2']; congr 1; ring
      _ ≤ n := a1q
  unfold floorLog2
  simp only []
  split_ifs with h
  · exact ⟨htest.mp h, hub⟩
  · refine ⟨hlb, ?_⟩
    rw [sub_add_cancel]
    exact lt_of_not_le (fun hc => h (htest.mpr hc))

/-- What `roundFrac` returns on a positive exact value `x = (n / d) * 2 ^ e`: a quantum
`q` and a significand `m`, the integer nearest to `x / 2 ^ q`. -/
theorem roundFrac_spec (neg : Bool) (n d : Nat) (e : Int) (hn : 0 < n) (hd : 0 < d) :
    ∃ (q : Int) (m : Nat),
      roundFrac neg n d e
        = (if 0 ≤ q ∧ 2 ^ 128 ≤ m * 2 ^ q.toNat then DlScalar.inf neg
           else DlScalar.fin (sgn neg m) q) ∧
      -149 ≤ q ∧
      (q = -149 ∨ (2 : ℚ) ^ (q + 23) ≤ (n : ℚ) / d * 2 ^ e) ∧
      (n : ℚ) / d * 2 ^ e < 2 ^ (q + 24) ∧
      |(m : ℚ) - (n : ℚ) / d * 2 ^ e / 2 ^ q| ≤ 1 / 2 ∧
      (∀ N : Nat, (n : ℚ) / d * 2 ^ e / 2 ^ q ≤ N → m ≤ N) ∧
      (∀ N : Nat, (N : ℚ) ≤ (n : ℚ) / d * 2 ^ e / 2 ^ q → N ≤ m) := by
  have h2 : (0 : ℚ) < 2 := by norm_num
  have h2' : (2 : ℚ) ≠ 0 := by norm_num
  obtain ⟨l1, l2⟩ := floorLog2_spec n d hn hd
  have hpe : (0 : ℚ) < 2 ^ e := zpow_pos h2 e
  set q : Int := max (floorLog2 n d + e - 23) (-149) with hq
  set num := shl n (e - q) with hnum
  set den := shl d (q - e) with hden
  have hdenpos : 0 < den := shl_pos hd _
  have hdenq : (0 : ℚ) < (den : ℚ) := by exact_mod_cast hdenpos
  have hfrac : (num : ℚ) / den = (n : ℚ) / d * 2 ^ e / 2 ^ q := by
    have hs := shl_div_shl n d (e - q) hd
    rw [neg_sub] at hs
    rw [hs, zpow_sub₀ h2']
    ring
  obtain ⟨s1, s2, s3, s4⟩ := nearestEven_spec num den hdenpos
  refine ⟨q, nearestEven num den, ?_, le_max_right _ _, ?_, ?_, ?_, ?_, ?_⟩
  · unfold roundFrac
    rw [if_neg (by omega)]
  · rcases le_total (floorLog2 n d + e - 23) (-149) with h | h
    · left; exact max_eq_right h
    · right
      have : q = floorLog2 n d + e - 23 := max_eq_left h
      rw [this]
      have : floorLog2 n d + e - 23 + 23 = floorLog2 n d + e := by ring
      rw [this, zpow_add₀ h2']
      exact mul_le_mul_of_nonneg_right l1 (le_of_lt hpe)
  · have hle : floorLog2 n d + 1 + e ≤ q + 24 := by
      have := le_max_left (floorLog2 n d + e - 23) (-149)
      omega
    calc (n : ℚ) / d * 2 ^ e < 2 ^ (floorLog2 n d + 1) * 2 ^ e :=
          mul_lt_mul_of_pos_right l2 hpe
      _ = 2 ^ (floorLog2 n d + 1 + e) := by rw [← zpow_add₀ h2']
      _ ≤ 2 ^ (q + 24) := zpow_le_zpow_right₀ (by norm_num) hle
  · rw [← hfrac, abs_le]
    have c1 : (2 : ℚ) * ((nearestEven num den : ℚ) * den) ≤ 2 * num + den := by
      exact_mod_cast s1
    have c2 : (2 : ℚ) * num ≤ 2 * ((nearestEven num den : ℚ) * den) + den := by
      exact_mod_cast s2
    have ht : (num : ℚ) = (num : ℚ) / den * den := by field_simp
    rw [ht] at c1 c2
    constructor
    · by_contra hc
      push_neg at hc
      have := mul_lt_mul_of_pos_right hc hdenq
      linarith
    · by_contra hc
      push_neg at hc
      have := mul_lt_mul_of_pos_right hc hdenq
      linarith
  · intro N hN
    rw [← hfrac, div_le_iff₀ hdenq] at hN
    exact s3 N (by exact_mod_cast hN)
  · intro N hN
    rw [← hfrac, le_div_iff₀ hdenq] at hN
    exact s4 N (by exact_mod_cast hN)

theorem rounds_zero : Rounds 0 0 := by
  refine ⟨-149, 0, le_rfl, Or.inl rfl, by positivity, by simp, by simp; positivity, ?_, ?_⟩
  · intro N _; positivity
  · intro N h; exact h

/-- Rounding a non-negative exact value below `2 ^ 127` gives a finite non-negative
scalar that is a rounding of it. -/
theorem roundFrac_rounds (n d : Nat) (e : Int) (hd : 0 < d)
    (hx : (n : ℚ) / d * 2 ^ e < 2 ^ (127 : Int)) :
    ∃ (m q : Int), roundFrac false n d e = DlScalar.fin m q ∧ 0 ≤ m ∧
      Rounds ((n : ℚ) / d * 2 ^ e) ((m : ℚ) * 2 ^ q) := by
  rcases Nat.eq_zero_or_pos n with hn | hn
  · subst hn
    refine ⟨0, 0, by simp [roundFrac], le_rfl, ?_⟩
    simpa using rounds_zero
  obtain ⟨q, m, hr, hq, hqx, hxq, habs, hup, hlo⟩ := roundFrac_spec false n d e hn hd
  have h2 : (0 : ℚ) < 2 := by norm_num
  have hpq : (0 : ℚ) < 2 ^ q := zpow_pos h2 q
  set x : ℚ := (n : ℚ) / d * 2 ^ e with hxdef
  -- the significand has at most 24 bits, up to the carry
  have hm24 : m ≤ 2 ^ 24 := by
    apply hup
    rw [div_le_iff₀ hpq]
    have : (2 : ℚ) ^ (q + 24) = ((2 ^ 24 : Nat) : ℚ) * 2 ^ q := by
      rw [zpow_add₀ (by norm_num : (2 : ℚ) ≠ 0)]
      norm_num
      ring
    linarith
  -- hence no overflow
  have hno : ¬ (0 ≤ q ∧ 2 ^ 128 ≤ m * 2 ^ q.toNat) := by
    rintro ⟨hq0, hov⟩
    have hq103 : q ≤ 103 := by
      rcases hqx with h | h
      · omega
      · have hlt : (2 : ℚ) ^ (q + 23) < 2 ^ (127 : Int) := lt_of_le_of_lt h hx
        have := (zpow_lt_zpow_iff_right₀ (by norm_num : (1 : ℚ) < 2)).mp hlt
        omega
    have hqn : q.toNat ≤ 103 := by omega
    have h1 : m * 2 ^ q.toNat ≤ 2 ^ 24 * 2 ^ 103 :=
      Nat.mul_le_mul hm24 (Nat.pow_le_pow_right (by norm_num) hqn)
    have h3 : (2 : Nat) ^ 24 * 2 ^ 103 < 2 ^ 128 := by norm_num
    omega
  refine ⟨m, q, ?_, by positivity, q, m, hq, hqx, hxq, by push_cast; rfl, ?_, ?_, ?_⟩
  · rw [hr, if_neg hno]
    simp [sgn]
  · have e1 : ((m : Int) : ℚ) * 2 ^ q - x = ((m : ℚ) - x / 2 ^ q) * 2 ^ q := by
      push_cast
      field_simp
    rw [e1, abs_mul, abs_of_pos hpq]
    calc |(m : ℚ) - x / 2 ^ q| * 2 ^ q ≤ 1 / 2 * 2 ^ q :=
          mul_le_mul_of_nonneg_right habs (le_of_lt hpq)
      _ = 2 ^ q / 2 := by ring
  · intro N hN
    have := hup N (by rw [div_le_iff₀ hpq]; exact hN)
    push_cast
    exact mul_le_mul_of_nonneg_right (by exact_mod_cast this) (le_of_lt hpq)
  · intro N hN
    have := hlo N (by rw [le_div_iff₀ hpq]; exact hN)
    push_cast
    exact mul_le_mul_of_nonneg_right (by exact_mod_cast this) (le_of_lt hpq)

theorem Rounds.nonneg {x y : ℚ} (h : Rounds x y) : 0 ≤ y := by
  obtain ⟨q, m, -, -, -, hy, -⟩ := h
  rw [hy]
  positivity

/-- The quantum of a rounding is at most `2 ^ j` when the exact value is below
`2 ^ (j + 24)`. -/
theorem Rounds.quantum_le {x : ℚ} {q j : Int} (hq : q = -149 ∨ (2 : ℚ) ^ (q + 23) ≤ x)
    (hj : -149 ≤ j) (hx : x < 2 ^ (j + 24)) : q ≤ j := by
  rcases hq with h | h
  · omega
  · have hlt : (2 : ℚ) ^ (q + 23) < 2 ^ (j + 24) := lt_of_le_of_lt h hx
    have := (zpow_lt_zpow_iff_right₀ (by norm_num : (1 : ℚ) < 2)).mp hlt
    omega

/-- Relative error of a rounding in the normal range. -/
theorem Rounds.rel_err {x y : ℚ} (h : Rounds x y) (hx : (2 : ℚ) ^ (-126 : Int) ≤ x) :
    |y - x| ≤ x / 2 ^ 24 := by
  obtain ⟨q, m, hq, hqx, -, -, habs, -, -⟩ := h
  have h23 : (2 : ℚ) ^ (q + 23) ≤ x := by
    rcases hqx with h | h
    · rw [h]
      have e0 : (-149 : Int) + 23 = -126 := by norm_num
      rw [e0]
      exact hx
    · exact h
  have e : (2 : ℚ) ^ (q + 23) = 2 ^ q * 2 ^ 23 := by
    rw [zpow_add₀ (by norm_num : (2 : ℚ) ≠ 0)]; norm_num
  rw [e] at h23
  have hpq : (0 : ℚ) < 2 ^ q := zpow_pos (by norm_num) q
  calc |y - x| ≤ 2 ^ q / 2 := habs
    _ = 2 ^ q * 2 ^ 23 / 2 ^ 24 := by ring
    _ ≤ x / 2 ^ 24 := by
        apply div_le_div_of_nonneg_right h23; positivity

/-- Absolute error of a rounding of a value below `2 ^ k`. -/
theorem Rounds.abs_err {x y : ℚ} (h : Rounds x y) (k : Int) (hk : -125 ≤ k)
    (hx : x < 2 ^ k) : |y - x| ≤ 2 ^ (k - 25) := by
  obtain ⟨q, m, hq, hqx, -, -, habs, -, -⟩ := h
  have hqk : q ≤ k - 24 :=
    Rounds.quantum_le hqx (by omega) (by rw [sub_add_cancel]; exact hx)
  calc |y - x| ≤ 2 ^ q / 2 := habs
    _ = 2 ^ (q - 1) := by
        rw [zpow_sub₀ (by norm_num : (2 : ℚ) ≠ 0)]; norm_num
    _ ≤ 2 ^ (k - 25) := zpow_le_zpow_right₀ (by norm_num) (by omega)

theorem grid_coarsen (N : Nat) {q j : Int} (h : q ≤ j) :
    (N : ℚ) * 2 ^ j = ((N * 2 ^ (j - q).toNat : Nat) : ℚ) * 2 ^ q := by
  have e : j = (((j - q).toNat : Nat) : Int) + q := by omega
  conv_lhs => rw [e]
  rw [zpow_add₀ (by norm_num : (2 : ℚ) ≠ 0), zpow_natCast]
  push_cast
  ring

/-- A rounding does not cross a representable value above the exact value. -/
theorem Rounds.le_of_le {x y : ℚ} (h : Rounds x y) (N : Nat) (j : Int) (hj : -149 ≤ j)
    (hN : N < 2 ^ 24) (hx : x ≤ (N : ℚ) * 2 ^ j) : y ≤ (N : ℚ) * 2 ^ j := by
  obtain ⟨q, m, hq, hqx, -, -, -, hup, -⟩ := h
  have hlt : x < 2 ^ (j + 24) := by
    have : (N : ℚ) * 2 ^ j < 2 ^ (j + 24) := by
      rw [zpow_add₀ (by norm_num : (2 : ℚ) ≠ 0), mul_comm]
      apply mul_lt_mul_of_pos_left _ (zpow_pos (by norm_num) j)
      have h24 : (2 : ℚ) ^ (24 : Int) = ((2 ^ 24 : Nat) : ℚ) := by norm_num
      rw [h24]
      exact_mod_cast hN
    linarith
  have hqj := Rounds.quantum_le hqx hj hlt
  rw [grid_coarsen N hqj] at hx ⊢
  exact hup _ hx

/-- A rounding does not cross a representable value below the exact value, as long
as the exact value stays in the binade range of that value. -/
theorem Rounds.ge_of_ge {x y : ℚ} (h : Rounds x y) (N : Nat) (j : Int) (hj : -149 ≤ j)
    (hx : (N : ℚ) * 2 ^ j ≤ x) (hx2 : x < 2 ^ (j + 24)) : (N : ℚ) * 2 ^ j ≤ y := by
  obtain ⟨q, m, hq, hqx, -, -, -, -, hlo⟩ := h
  have hqj := Rounds.quantum_le hqx hj hx2
  rw [grid_coarsen N hqj] at hx ⊢
  exact hlo _ hx

/-- A representable value rounds to itself. -/
theorem Rounds.exact {x y : ℚ} (h : Rounds x y) (N : Nat) (j : Int) (hj : -149 ≤ j)
    (hN : N < 2 ^ 24) (hx : x = (N : ℚ) * 2 ^ j) : y = x := by
  have hlt : x < 2 ^ (j + 24) := by
    rw [hx, zpow_add₀ (by norm_num : (2 : ℚ) ≠ 0), mul_comm]
    apply mul_lt_mul_of_pos_left _ (zpow_pos (by norm_num) j)
    have h24 : (2 : ℚ) ^ (24 : Int) = ((2 ^ 24 : Nat) : ℚ) := by norm_num
    rw [h24]
    exact_mod_cast hN
  apply le_antisymm
  · rw [hx]; exact h.le_of_le N j hj hN (le_of_eq hx)
  · rw [hx]; exact h.ge_of_ge N j hj (le_of_eq hx.symm) hlt

namespace DlScalar

theorem NonNeg.toRat_nonneg {a : DlScalar} (h : a.NonNeg) : 0 ≤ a.toRat := by
  cases a with
  | fin m e =>
    simp only [NonNeg] at h
    simp only [toRat]
    have : (0 : ℚ) ≤ m := by exact_mod_cast h
    positivity
  | inf n => exact absurd h (by simp [NonNeg])
  | nan => exact absurd h (by simp [NonNeg])

/-- The product of two non-negative scalars is the rounding of the exact product. -/
theorem mul_nonneg {a b : DlScalar} (ha : a.NonNeg) (hb : b.NonNeg)
    (hx : a.toRat * b.toRat < 2 ^ (127 : Int)) :
    (a.mul b).NonNeg ∧ Rounds (a.toRat * b.toRat) (a.mul b).toRat := by
  cases a with
  | inf n => exact absurd ha (by simp [NonNeg])
  | nan => exact absurd ha (by simp [NonNeg])
  | fin m1 e1 =>
  cases b with
  | inf n => exact absurd hb (by simp [NonNeg])
  | nan => exact absurd hb (by simp [NonNeg])
  | fin m2 e2 =>
    simp only [NonNeg] at ha hb
    have hx' : ((m1.natAbs * m2.natAbs : Nat) : ℚ) / (1 : Nat) * 2 ^ (e1 + e2)
        = (fin m1 e1).toRat * (fin m2 e2).toRat := by
      simp only [toRat]
      rw [zpow_add₀ (by norm_num : (2 : ℚ) ≠ 0)]
      have h1 : ((m1.natAbs : Nat) : ℚ) = (m1 : ℚ) := by
        rw [← Int.cast_natCast, Int.natAbs_of_nonneg ha]
      have h2 : ((m2.natAbs : Nat) : ℚ) = (m2 : ℚ) := by
        rw [← Int.cast_natCast, Int.natAbs_of_nonneg hb]
      push_cast
      rw [h1, h2]
      ring
    obtain ⟨m, q, hr, hm, hR⟩ :=
      roundFrac_rounds (m1.natAbs * m2.natAbs) 1 (e1 + e2) (by norm_num) (by rw [hx']; exact hx)
    have hmul : (fin m1 e1).mul (fin m2 e2) = fin m q := by
      simp only [mul]
      have d1 : decide (m1 < 0) = false := by simp; omega
      have d2 : decide (m2 < 0) = false := by simp; omega
      rw [d1, d2]
      exact hr
    rw [hmul]
    refine ⟨hm, ?_⟩
    rw [← hx']
    exact hR

/-- Conversion of a natural number to a scalar. -/
theorem ofInt_natCast (k : Nat) (hk : k < 2 ^ 24) :
    (ofInt (k : Int)).NonNeg ∧ (ofInt (k : Int)).toRat = k := by
  have hx : ((k : Nat) : ℚ) / (1 : Nat) * 2 ^ (0 : Int) = k := by simp
  have hlt : ((k : Nat) : ℚ) / (1 : Nat) * 2 ^ (0 : Int) < 2 ^ (127 : Int) := by
    rw [hx]
    have : (k : ℚ) < ((2 ^ 24 : Nat) : ℚ) := by exact_mod_cast hk
    have h2 : (((2 ^ 24 : Nat) : ℚ)) < 2 ^ (127 : Int) := by norm_num
    linarith
  obtain ⟨m, q, hr, hm, hR⟩ := roundFrac_rounds k 1 0 (by norm_num) hlt
  have ho : ofInt (k : Int) = fin m q := by
    simp only [ofInt]
    have d1 : decide ((k : Int) < 0) = false := by simp
    rw [d1, Int.natAbs_ofNat]
    exact hr
  rw [ho]
  refine ⟨hm, ?_⟩
  simp only [toRat]
  rw [hx] at hR
  exact hR.exact k 0 (by norm_num) hk (by simp)

end DlScalar

namespace DlScalar

/-- Rounding a non-negative scalar within half a unit of a byte value `N` and converting
to `uint8_t` gives `N`. -/
theorem toUInt8_round {s : DlScalar} (hs : s.NonNeg) (N : Nat) (hN : N ≤ 255)
    (h1 : (N : ℚ) - 1 / 2 ≤ s.toRat) (h2 : s.toRat < (N : ℚ) + 1 / 2) :
    s.round.toUInt8 = some N := by
  cases s with
  | inf n => exact absurd hs (by simp [NonNeg])
  | nan => exact absurd hs (by simp [NonNeg])
  | fin m e =>
    simp only [NonNeg] at hs
    simp only [toRat] at h1 h2
    obtain ⟨n, rfl⟩ := Int.eq_ofNat_of_zero_le hs
    rcases le_or_lt 0 e with he | he
    · -- the value is an integer already
      have hz : (2 : ℚ) ^ e = ((2 ^ e.toNat : Nat) : ℚ) := by
        conv_lhs => rw [← Int.toNat_of_nonneg he]
        rw [zpow_natCast]
        push_cast
        rfl
      rw [hz] at h1 h2
      have hval : n * 2 ^ e.toNat = N := by
        have a1 : (2 * N : ℚ) ≤ 2 * ((n * 2 ^ e.toNat : Nat) : ℚ) + 1 := by
          push_cast; push_cast at h1; linarith
        have a2 : 2 * ((n * 2 ^ e.toNat : Nat) : ℚ) < 2 * N + 1 := by
          push_cast; push_cast at h2; linarith
        have b1 : 2 * N ≤ 2 * (n * 2 ^ e.toNat) + 1 := by exact_mod_cast a1
        have b2 : 2 * (n * 2 ^ e.toNat) < 2 * N + 1 := by exact_mod_cast a2
        omega
      have hint : ((n : Int) * 2 ^ e.toNat) * 2 ^ (0 : Int).toNat = (N : Int) := by
        simp only [Int.toNat_zero, pow_zero, mul_one]
        exact_mod_cast hval
      simp only [round, if_pos he, toUInt8, le_refl, if_true, hint]
      simp
      omega
    · -- a proper fraction with denominator `2 ^ k`
      have hk : (2 : ℚ) ^ e = 1 / ((2 ^ (-e).toNat : Nat) : ℚ) := by
        have : e = -(((-e).toNat : Nat) : Int) := by omega
        conv_lhs => rw [this]
        rw [zpow_neg, zpow_natCast]
        push_cast
        simp
      set k := (-e).toNat with hkdef
      have hpk : 0 < 2 ^ k := by positivity
      have hpkq : (0 : ℚ) < ((2 ^ k : Nat) : ℚ) := by exact_mod_cast hpk
      rw [hk] at h1 h2
      have a1 : ((2 * N * 2 ^ k : Nat) : ℚ) ≤ ((2 * n + 2 ^ k : Nat) : ℚ) := by
        have := (le_div_iff₀ hpkq).mp (by
          have : (N : ℚ) - 1 / 2 ≤ (n : ℚ) / ((2 ^ k : Nat) : ℚ) := by
            simpa [mul_one_div] using h1
          exact this)
        push_cast at this ⊢
        linarith
      have a2 : ((2 * n + 2 ^ k : Nat) : ℚ) < (((2 * N + 2) * 2 ^ k : Nat) : ℚ) := by
        have := (div_lt_iff₀ hpkq).mp (by
          have : (n : ℚ) / ((2 ^ k : Nat) : ℚ) < (N : ℚ) + 1 / 2 := by
            simpa [mul_one_div] using h2
          exact this)
        push_cast at this ⊢
        linarith
      have b1 : 2 * N * 2 ^ k ≤ 2 * n + 2 ^ k := by exact_mod_cast a1
      have b2 : 2 * n + 2 ^ k < (2 * N + 2) * 2 ^ k := by exact_mod_cast a2
      have hdiv : (2 * n + 2 ^ k) / (2 * 2 ^ k) = N := by
        apply Nat.div_eq_of_lt_le
        · calc N * (2 * 2 ^ k) = 2 * N * 2 ^ k := by ring
            _ ≤ 2 * n + 2 ^ k := b1
        · calc 2 * n + 2 ^ k < (2 * N + 2) * 2 ^ k := b2
            _ = (N + 1) * (2 * 2 ^ k) := by ring
      have d1 : decide ((n : Int) < 0) = false := by simp
      simp only [round, if_neg (not_le.mpr he), Int.natAbs_ofNat, d1, hdiv, sgn, toUInt8,
        le_refl, if_true]
      simp
      omega

/-- Rounding and converting a non-negative scalar below `255.5`: the result is the
floor of the value plus one half. -/
theorem toUInt8_round_floor {s : DlScalar} (hs : s.NonNeg)
    (h : s.toRat < 255 + 1 / 2) :
    s.round.toUInt8 = some ⌊s.toRat + 1 / 2⌋.toNat ∧ ⌊s.toRat + 1 / 2⌋.toNat ≤ 255 := by
  have h0 := hs.toRat_nonneg
  have hf0 : 0 ≤ ⌊s.toRat + 1 / 2⌋ := Int.floor_nonneg.mpr (by linarith)
  have hcast : ((⌊s.toRat + 1 / 2⌋.toNat : Nat) : ℚ) = (⌊s.toRat + 1 / 2⌋ : ℚ) := by
    rw [← Int.cast_natCast, Int.toNat_of_nonneg hf0]
  have hle : ⌊s.toRat + 1 / 2⌋.toNat ≤ 255 := by
    have : ⌊s.toRat + 1 / 2⌋ < 256 := Int.floor_lt.mpr (by push_cast; linarith)
    omega
  refine ⟨toUInt8_round hs _ hle ?_ ?_, hle⟩
  · rw [hcast]
    have := Int.floor_le (s.toRat + 1 / 2)
    linarith
  · rw [hcast]
    have := Int.lt_floor_add_one (s.toRat + 1 / 2)
    linarith

end DlScalar

theorem Rounds.bounds {x y : ℚ} (h : Rounds x y) (hx : (2 : ℚ) ^ (-126 : Int) ≤ x) :
    x * (1 - 1 / 2 ^ 24) ≤ y ∧ y ≤ x * (1 + 1 / 2 ^ 24) := by
  have := abs_le.mp (h.rel_err hx)
  constructor <;> linarith [this.1, this.2]

namespace DlColor

theorem inv255 : (DlScalar.ofInt 1).div (DlScalar.ofInt 255) = DlScalar.fin 8421505 (-31) := by
  decide

theorem ofInt255 : DlScalar.ofInt 255 = DlScalar.fin 16711680 (-16) := by decide

theorem toF_zero : toF 0 = DlScalar.fin 0 0 := by decide

theorem toC_zero : toC (DlScalar.fin 0 0) = some 0 := by decide

theorem zero_mul_fin (m e : Int) : (DlScalar.fin 0 0).mul (DlScalar.fin m e) = DlScalar.fin 0 0 := by
  simp [DlScalar.mul, roundFrac]

theorem fin_mul_zero (m e : Int) : (DlScalar.fin m e).mul (DlScalar.fin 0 0) = DlScalar.fin 0 0 := by
  simp [DlScalar.mul, roundFrac]

/-- The scalar `toF x` is the rounding of `x * k`, where `k` is the `float` nearest to
`1 / 255`. -/
theorem toF_spec (x : Nat) (hx : x < 256) :
    (toF x).NonNeg ∧ Rounds ((x : ℚ) * (8421505 / 2 ^ 31)) (toF x).toRat := by
  obtain ⟨h1, h2⟩ := DlScalar.ofInt_natCast x (by omega)
  have hk : (DlScalar.fin 8421505 (-31)).NonNeg := by simp [DlScalar.NonNeg]
  have hkv : (DlScalar.fin 8421505 (-31)).toRat = 8421505 / 2 ^ 31 := by
    simp only [DlScalar.toRat]
    norm_num
  have hxq : (x : ℚ) < 256 := by exact_mod_cast hx
  have hx0 : (0 : ℚ) ≤ x := by positivity
  have := DlScalar.mul_nonneg h1 hk (by
    rw [h2, hkv]
    norm_num
    nlinarith)
  unfold toF
  rw [inv255]
  rw [h2, hkv] at this
  exact this

end DlColor

namespace DlColor

/-- Bounds of `toF x` for a nonzero byte `x`. -/
theorem toF_bounds (x : Nat) (hx0 : 0 < x) (hx : x < 256) :
    (x : ℚ) * (8421505 / 2 ^ 31 * (1 - 1 / 2 ^ 24)) ≤ (toF x).toRat ∧
    (toF x).toRat ≤ (x : ℚ) * (8421505 / 2 ^ 31 * (1 + 1 / 2 ^ 24)) := by
  obtain ⟨-, hR⟩ := toF_spec x hx
  have hx1 : (1 : ℚ) ≤ x := by exact_mod_cast hx0
  have := hR.bounds (by
    have : (2 : ℚ) ^ (-126 : Int) ≤ 8421505 / 2 ^ 31 := by
      rw [zpow_neg]; norm_num
    nlinarith)
  constructor <;> linarith [this.1, this.2]

/-- Premultiplication of one channel: the byte obtained from the channel `x` and the
alpha `a` is the integer nearest to `x * a / 255`. -/
theorem premul_channel (x a : Nat) (hx : x < 256) (ha : a < 256) :
    toC ((toF x).mul (toF a)) = some ((2 * x * a + 255) / 510) := by
  obtain ⟨nx, -⟩ := toF_spec x hx
  obtain ⟨na, -⟩ := toF_spec a ha
  rcases Nat.eq_zero_or_pos x with hx0 | hx0
  · subst hx0
    rw [toF_zero]
    cases hfa : toF a with
    | inf n => rw [hfa] at na; exact absurd na (by simp [DlScalar.NonNeg])
    | nan => rw [hfa] at na; exact absurd na (by simp [DlScalar.NonNeg])
    | fin m e =>
      rw [zero_mul_fin, toC_zero]
      simp
  rcases Nat.eq_zero_or_pos a with ha0 | ha0
  · subst ha0
    rw [toF_zero]
    cases hfx : toF x with
    | inf n => rw [hfx] at nx; exact absurd nx (by simp [DlScalar.NonNeg])
    | nan => rw [hfx] at nx; exact absurd nx (by simp [DlScalar.NonNeg])
    | fin m e =>
      rw [fin_mul_zero, toC_zero]
      simp
  obtain ⟨bx0, bx1⟩ := toF_bounds x hx0 hx
  obtain ⟨ba0, ba1⟩ := toF_bounds a ha0 ha
  have hX1 : (1 : ℚ) ≤ x := by exact_mod_cast hx0
  have hX2 : (x : ℚ) ≤ 255 := by
    have : x ≤ 255 := by omega
    exact_mod_cast this
  have hA1 : (1 : ℚ) ≤ a := by exact_mod_cast ha0
  have hA2 : (a : ℚ) ≤ 255 := by
    have : a ≤ 255 := by omega
    exact_mod_cast this
  set tx := (toF x).toRat with htx
  set ta := (toF a).toRat with hta
  set P : ℚ := (x : ℚ) * a with hP
  have hP1 : (1 : ℚ) ≤ P := by nlinarith
  have hP2 : P ≤ 65025 := by nlinarith
  have tx0 : 0 ≤ tx := nx.toRat_nonneg
  have ta0 : 0 ≤ ta := na.toRat_nonneg
  -- the exact product of the two normalized channels
  have hprod_hi : tx * ta ≤ P * (8421505 / 2 ^ 31 * (1 + 1 / 2 ^ 24)) ^ 2 := by
    calc tx * ta ≤ ((x : ℚ) * (8421505 / 2 ^ 31 * (1 + 1 / 2 ^ 24)))
          * ((a : ℚ) * (8421505 / 2 ^ 31 * (1 + 1 / 2 ^ 24))) :=
          mul_le_mul bx1 ba1 ta0 (by positivity)
      _ = P * (8421505 / 2 ^ 31 * (1 + 1 / 2 ^ 24)) ^ 2 := by rw [hP]; ring
  have hprod_lo : P * (8421505 / 2 ^ 31 * (1 - 1 / 2 ^ 24)) ^ 2 ≤ tx * ta := by
    calc P * (8421505 / 2 ^ 31 * (1 - 1 / 2 ^ 24)) ^ 2
        = ((x : ℚ) * (8421505 / 2 ^ 31 * (1 - 1 / 2 ^ 24)))
          * ((a : ℚ) * (8421505 / 2 ^ 31 * (1 - 1 / 2 ^ 24))) := by rw [hP]; ring
      _ ≤ tx * ta := mul_le_mul bx0 ba0 (by positivity) tx0
  -- its rounding
  obtain ⟨np, hRp⟩ := DlScalar.mul_nonneg nx na (by
    have : (2 : ℚ) ^ (127 : Int) = 2 ^ 127 := by norm_num
    rw [this]
    norm_num at hprod_hi ⊢
    linarith)
  rw [← htx, ← hta] at hRp
  have hpb := hRp.bounds (by
    rw [zpow_neg]
    norm_num at hprod_lo ⊢
    linarith)
  set p := ((toF x).mul (toF a)).toRat with hp
  -- the scaling by 255 and its rounding
  have n255 : (DlScalar.ofInt 255).NonNeg := by rw [ofInt255]; simp [DlScalar.NonNeg]
  have v255' : (DlScalar.ofInt 255).toRat = 255 := by
    rw [ofInt255]
    simp only [DlScalar.toRat]
    norm_num
  obtain ⟨nw, hRw⟩ := DlScalar.mul_nonneg np n255 (by
    rw [v255', ← hp]
    have : (2 : ℚ) ^ (127 : Int) = 2 ^ 127 := by norm_num
    rw [this]
    norm_num at hprod_hi hpb ⊢
    linarith [hpb.2])
  rw [v255', ← hp] at hRw
  have hwb := hRw.bounds (by
    rw [zpow_neg]
    norm_num at hprod_lo hpb ⊢
    linarith [hpb.1])
  -- the nearest integer to `x * a / 255`
  have e2 : 2 * x * a = 2 * (x * a) := by ring
  have hN1 : 510 * ((2 * x * a + 255) / 510) + 1 ≤ 2 * (x * a) + 255 := by
    rw [e2]; omega
  have hN2 : 2 * (x * a) + 255 ≤ 510 * ((2 * x * a + 255) / 510) + 509 := by
    rw [e2]; omega
  have hNle : (2 * x * a + 255) / 510 ≤ 255 := by
    have : x * a ≤ 255 * 255 := Nat.mul_le_mul (by omega) (by omega)
    rw [e2]; omega
  have qN1 : (510 : ℚ) * (((2 * x * a + 255) / 510 : Nat) : ℚ) + 1 ≤ 2 * P + 255 := by
    rw [hP]; exact_mod_cast hN1
  have qN2 : 2 * P + 255 ≤ (510 : ℚ) * (((2 * x * a + 255) / 510 : Nat) : ℚ) + 509 := by
    rw [hP]; exact_mod_cast hN2
  unfold toC
  apply DlScalar.toUInt8_round nw _ hNle
  · norm_num at hprod_lo hpb hwb ⊢
    linarith [hpb.1, hwb.1]
  · norm_num at hprod_hi hpb hwb ⊢
    linarith [hpb.2, hwb.2]

end DlColor

theorem and_FF000000 (x : Nat) (hx : x < 4294967296) :
    x &&& 0xFF000000 = (x >>> 24) <<< 24 := by
  apply Nat.eq_of_testBit_eq
  intro i
  have m2 : (0xFF000000 : Nat) = (2 ^ 8 - 1) <<< 24 := by decide
  rw [m2]
  simp only [Nat.testBit_and, Nat.testBit_shiftLeft, Nat.testBit_shiftRight,
    Nat.testBit_two_pow_sub_one]
  by_cases h : 24 ≤ i
  · have e1 : 24 + (i - 24) = i := by omega
    by_cases h2 : i < 32
    · have e2 : i - 24 < 8 := by omega
      simp [h, e1, e2]
    · have hb : x.testBit i = false :=
        Nat.testBit_lt_two_pow (lt_of_lt_of_le hx (by
          calc 4294967296 = 2 ^ 32 := by norm_num
            _ ≤ 2 ^ i := Nat.pow_le_pow_right (by norm_num) (by omega)))
      simp [h, e1, hb]
  · simp [h]

/-- The word assembled by `premultipliedArgb` from the original alpha byte and three
channel bytes, as a sum. -/
theorem premul_pack_eq (x : Nat) (hx : x < 4294967296) {r g b : Nat}
    (hr : r < 256) (hg : g < 256) (hb : b < 256) :
    ((x &&& 0xFF000000) ||| r <<< 16 ||| g <<< 8 ||| b) % 4294967296
      = (x / 16777216) * 16777216 + r * 65536 + g * 256 + b := by
  rw [and_FF000000 x hx, pack_eq _ hr hg hb, Nat.shiftRight_eq_div_pow]
  omega

namespace DlScalar

theorem ofInt_zero : ofInt 0 = fin 0 0 := by decide

theorem ofInt_one : ofInt 1 = fin 8388608 (-23) := by decide

theorem two_zpow_toNat {k : Int} (hk : 0 ≤ k) : (2 : ℚ) ^ k.toNat = (2 : ℚ) ^ k := by
  conv_rhs => rw [← Int.toNat_of_nonneg hk]
  rw [zpow_natCast]

/-- The comparison of finite scalars is the comparison of their values. -/
theorem le_fin_iff (m1 e1 m2 e2 : Int) :
    (fin m1 e1).le (fin m2 e2) = true ↔ (fin m1 e1).toRat ≤ (fin m2 e2).toRat := by
  have h2 : (2 : ℚ) ≠ 0 := by norm_num
  have hp : (0 : ℚ) < 2 ^ (min e1 e2) := zpow_pos (by norm_num) _
  have s1 : (m1 : ℚ) * 2 ^ e1
      = ((m1 * 2 ^ (e1 - min e1 e2).toNat : Int) : ℚ) * 2 ^ (min e1 e2) := by
    push_cast
    have hk : 0 ≤ e1 - min e1 e2 := by have := min_le_left e1 e2; omega
    rw [two_zpow_toNat hk, mul_assoc, ← zpow_add₀ h2]
    congr 2
    ring
  have s2 : (m2 : ℚ) * 2 ^ e2
      = ((m2 * 2 ^ (e2 - min e1 e2).toNat : Int) : ℚ) * 2 ^ (min e1 e2) := by
    push_cast
    have hk : 0 ≤ e2 - min e1 e2 := by have := min_le_right e1 e2; omega
    rw [two_zpow_toNat hk, mul_assoc, ← zpow_add₀ h2]
    congr 2
    ring
  simp only [le, toRat, decide_eq_true_eq]
  rw [s1, s2, mul_le_mul_right hp]
  exact Int.cast_le.symm

theorem le_zero_iff (m e : Int) : (fin m e).le (ofInt 0) = true ↔ (fin m e).toRat ≤ 0 := by
  rw [ofInt_zero, le_fin_iff]
  simp [toRat]

theorem one_le_iff (m e : Int) : (ofInt 1).le (fin m e) = true ↔ 1 ≤ (fin m e).toRat := by
  rw [ofInt_one, le_fin_iff]
  have : (fin 8388608 (-23)).toRat = 1 := by
    simp only [toRat]
    norm_num
  rw [this]

end DlScalar

namespace DlColor

theorem getAlpha_le (c : DlColor) : c.getAlpha ≤ 255 := by
  have := c.lt
  rw [getAlpha_eq]
  omega

/-- Channels of `withAlpha`. -/
theorem withAlpha_channels (c : DlColor) (v : Nat) (hv : v < 256) :
    (c.withAlpha v).getAlpha = v ∧ (c.withAlpha v).getRed = c.getRed ∧
    (c.withAlpha v).getGreen = c.getGreen ∧ (c.withAlpha v).getBlue = c.getBlue := by
  have hA : ∀ d : DlColor, d.getAlpha = (d.argb_ >>> 24) &&& 0xFF := fun d => shr24_eq d.lt
  have hB : ∀ d : DlColor, d.getBlue = (d.argb_ >>> 0) &&& 0xFF := fun _ => rfl
  simp only [hA, hB]
  simp only [getRed, getGreen, withAlpha, ofUInt32]
  refine ⟨?_, ?_, ?_, ?_⟩
  · exact field_read _ v _ 24 hv (by decide) (by decide)
  · exact field_keep _ v _ 24 16 hv (by decide) (by decide) (by decide)
  · exact field_keep _ v _ 24 8 hv (by decide) (by decide) (by decide)
  · exact field_keep _ v _ 24 0 hv (by decide) (by decide) (by decide)

end DlColor

namespace DlColor

theorem getRed_lt (c : DlColor) : c.getRed < 256 := by
  rw [getRed_eq]; omega

theorem getGreen_lt (c : DlColor) : c.getGreen < 256 := by
  rw [getGreen_eq]; omega

theorem getBlue_lt (c : DlColor) : c.getBlue < 256 := by
  rw [getBlue_eq]; omega

theorem premul_byte_lt (x a : Nat) (hx : x < 256) (ha : a < 256) :
    (2 * x * a + 255) / 510 < 256 := by
  have : x * a ≤ 255 * 255 := Nat.mul_le_mul (by omega) (by omega)
  have e2 : 2 * x * a = 2 * (x * a) := by ring
  rw [e2]; omega

/-- The byte `(2 * P + 255) / 510` is the integer nearest to `P / 255`. -/
theorem nearest_255 (P : Nat) :
    |(((2 * P + 255) / 510 : Nat) : ℚ) - (P : ℚ) / 255| < 1 / 2 := by
  have h1 : 510 * ((2 * P + 255) / 510) + 1 ≤ 2 * P + 255 := by omega
  have h2 : 2 * P + 255 ≤ 510 * ((2 * P + 255) / 510) + 509 := by omega
  have q1 : (510 : ℚ) * (((2 * P + 255) / 510 : Nat) : ℚ) + 1 ≤ 2 * P + 255 := by
    exact_mod_cast h1
  have q2 : (2 : ℚ) * P + 255 ≤ 510 * (((2 * P + 255) / 510 : Nat) : ℚ) + 509 := by
    exact_mod_cast h2
  rw [abs_lt]
  constructor <;> linarith

/-- The value of `premultipliedArgb` on a colour that is not opaque. -/
theorem premultipliedArgb_eq (c : DlColor) (h : c.isOpaque = false) :
    c.premultipliedArgb = some (c.getAlpha * 16777216
      + (2 * c.getRed * c.getAlpha + 255) / 510 * 65536
      + (2 * c.getGreen * c.getAlpha + 255) / 510 * 256
      + (2 * c.getBlue * c.getAlpha + 255) / 510) := by
  have hA : c.getAlpha < 256 := by have := c.getAlpha_le; omega
  have hr := premul_byte_lt c.getRed c.getAlpha c.getRed_lt hA
  have hg := premul_byte_lt c.getGreen c.getAlpha c.getGreen_lt hA
  have hb := premul_byte_lt c.getBlue c.getAlpha c.getBlue_lt hA
  simp only [premultipliedArgb, h, getRedF, getGreenF, getBlueF, getAlphaF,
    premul_channel _ _ c.getRed_lt hA, premul_channel _ _ c.getGreen_lt hA,
    premul_channel _ _ c.getBlue_lt hA]
  simp only [Bool.false_eq_true, if_false, Option.bind_eq_bind, Option.some_bind,
    Option.pure_def]
  rw [premul_pack_eq c.argb_ c.lt hr hg hb, getAlpha_eq]

end DlColor

namespace DlColor

/-- The third branch of `modulateOpacity`, taken for a finite factor strictly between
`0` and `1`: the single-precision product of alpha and factor is within `2 ^ (-17)` of
the exact product and at most alpha, and the new alpha is that product rounded. -/
theorem modulate_mid (c : DlColor) (m e : Int)
    (h0 : 0 < (DlScalar.fin m e).toRat) (h1 : (DlScalar.fin m e).toRat < 1) :
    ((DlScalar.ofInt c.getAlpha).mul (DlScalar.fin m e)).NonNeg ∧
    |((DlScalar.ofInt c.getAlpha).mul (DlScalar.fin m e)).toRat
        - (c.getAlpha : ℚ) * (DlScalar.fin m e).toRat| ≤ 1 / 2 ^ 17 ∧
    ((DlScalar.ofInt c.getAlpha).mul (DlScalar.fin m e)).toRat ≤ c.getAlpha ∧
    ⌊((DlScalar.ofInt c.getAlpha).mul (DlScalar.fin m e)).toRat + 1 / 2⌋.toNat ≤ c.getAlpha ∧
    c.modulateOpacity (DlScalar.fin m e) = some (c.withAlpha
      ⌊((DlScalar.ofInt c.getAlpha).mul (DlScalar.fin m e)).toRat + 1 / 2⌋.toNat) := by
  have hA := c.getAlpha_le
  have hAq : (c.getAlpha : ℚ) ≤ 255 := by exact_mod_cast hA
  have hA0 : (0 : ℚ) ≤ c.getAlpha := by positivity
  obtain ⟨na, va⟩ := DlScalar.ofInt_natCast c.getAlpha (by omega)
  have nf : (DlScalar.fin m e).NonNeg := by
    simp only [DlScalar.NonNeg]
    simp only [DlScalar.toRat] at h0
    have hp : (0 : ℚ) < 2 ^ e := zpow_pos (by norm_num) e
    have : (0 : ℚ) < m := by
      by_contra hc
      push_neg at hc
      have := mul_nonpos_of_nonpos_of_nonneg hc (le_of_lt hp)
      linarith
    have : (0 : Int) < m := by exact_mod_cast this
    omega
  set f := (DlScalar.fin m e).toRat with hf
  have hxle : (c.getAlpha : ℚ) * f ≤ c.getAlpha := by nlinarith
  have hx0 : 0 ≤ (c.getAlpha : ℚ) * f := by positivity
  obtain ⟨np, hR⟩ := DlScalar.mul_nonneg na nf (by
    rw [va, ← hf]
    have : (2 : ℚ) ^ (127 : Int) = 2 ^ 127 := by norm_num
    rw [this]
    norm_num
    linarith)
  rw [va, ← hf] at hR
  set p := ((DlScalar.ofInt c.getAlpha).mul (DlScalar.fin m e)).toRat with hp
  have herr : |p - (c.getAlpha : ℚ) * f| ≤ 1 / 2 ^ 17 := by
    have := hR.abs_err 8 (by norm_num) (by norm_num; linarith)
    have e17 : (2 : ℚ) ^ ((8 : Int) - 25) = 1 / 2 ^ 17 := by
      rw [show (8 : Int) - 25 = -17 by norm_num, zpow_neg]
      norm_num
    rw [e17] at this
    exact this
  have hple : p ≤ c.getAlpha := by
    have := hR.le_of_le c.getAlpha 0 (by norm_num) (by omega) (by simpa using hxle)
    simpa using this
  have hfl := DlScalar.toUInt8_round_floor np (by rw [← hp]; linarith)
  rw [← hp] at hfl
  have hnle : ⌊p + 1 / 2⌋.toNat ≤ c.getAlpha := by
    have : ⌊p + 1 / 2⌋ < (c.getAlpha : Int) + 1 := Int.floor_lt.mpr (by push_cast; linarith)
    omega
  refine ⟨np, herr, hple, hnle, ?_⟩
  have b0 : (DlScalar.fin m e).le (DlScalar.ofInt 0) = false := by
    rw [Bool.eq_false_iff, Ne, DlScalar.le_zero_iff]
    exact not_le.mpr h0
  have b1 : (DlScalar.ofInt 1).le (DlScalar.fin m e) = false := by
    rw [Bool.eq_false_iff, Ne, DlScalar.one_le_iff]
    exact not_le.mpr h1
  simp only [modulateOpacity, b0, b1, Bool.false_eq_true, if_false, hfl.1, Option.map_some']

end DlColor

namespace DlColor

/-- Channels of the colour made from a sum of four bytes in their positions. -/
theorem channels_of_sum (a r g b : Nat) (ha : a < 256) (hr : r < 256) (hg : g < 256)
    (hb : b < 256) :
    (ofUInt32 (a * 16777216 + r * 65536 + g * 256 + b)).getAlpha = a ∧
    (ofUInt32 (a * 16777216 + r * 65536 + g * 256 + b)).getRed = r ∧
    (ofUInt32 (a * 16777216 + r * 65536 + g * 256 + b)).getGreen = g ∧
    (ofUInt32 (a * 16777216 + r * 65536 + g * 256 + b)).getBlue = b := by
  rw [getAlpha_eq, getRed_eq, getGreen_eq, getBlue_eq]
  simp only [ofUInt32]
  omega

end DlColor

namespace DlColor

theorem ofInt255_nonneg : (DlScalar.ofInt 255).NonNeg := by
  rw [ofInt255]; simp [DlScalar.NonNeg]

theorem ofInt255_toRat : (DlScalar.ofInt 255).toRat = 255 := by
  rw [ofInt255]
  simp only [DlScalar.toRat]
  norm_num

/-- Conversion by `toC` of a scalar in `[0, 1]`. -/
theorem toC_unit (x : DlScalar) (hx : x.InUnit) :
    ∃ n : Nat, RoundedChannel x n := by
  obtain ⟨nx, h1⟩ := hx
  have h0 := nx.toRat_nonneg
  obtain ⟨np, hR⟩ := DlScalar.mul_nonneg nx ofInt255_nonneg (by
    rw [ofInt255_toRat]
    have : (2 : ℚ) ^ (127 : Int) = 2 ^ 127 := by norm_num
    rw [this]
    norm_num
    linarith)
  rw [ofInt255_toRat] at hR
  set p := (x.mul (DlScalar.ofInt 255)).toRat with hp
  have herr : |p - x.toRat * 255| ≤ 1 / 2 ^ 17 := by
    have := hR.abs_err 8 (by norm_num) (by norm_num; linarith)
    have e17 : (2 : ℚ) ^ ((8 : Int) - 25) = 1 / 2 ^ 17 := by
      rw [show (8 : Int) - 25 = -17 by norm_num, zpow_neg]
      norm_num
    rw [e17] at this
    exact this
  have hple : p ≤ 255 := by
    have := hR.le_of_le 255 0 (by norm_num) (by norm_num) (by norm_num; linarith)
    simpa using this
  have hp0 : 0 ≤ p := np.toRat_nonneg
  have hfl := DlScalar.toUInt8_round_floor np (by rw [← hp]; linarith)
  rw [← hp] at hfl
  have hf0 : 0 ≤ ⌊p + 1 / 2⌋ := Int.floor_nonneg.mpr (by linarith)
  have hn : ((⌊p + 1 / 2⌋.toNat : Nat) : Int) = ⌊p + 1 / 2⌋ := Int.toNat_of_nonneg hf0
  have hnq : ((⌊p + 1 / 2⌋.toNat : Nat) : ℚ) = (⌊p + 1 / 2⌋ : ℚ) := by
    rw [← Int.cast_natCast, hn]
  refine ⟨⌊p + 1 / 2⌋.toNat, hfl.1, hfl.2, hn, herr, ?_, ?_⟩
  · rw [hnq]
    have f1 := Int.floor_le (p + 1 / 2)
    have f2 := Int.lt_floor_add_one (p + 1 / 2)
    have := abs_le.mp herr
    rw [abs_le]
    constructor <;> linarith [this.1, this.2]
  · intro hex
    rw [hn, hp, hex]

theorem toF_255 : toF 255 = DlScalar.fin 8388608 (-23) := by decide

/-- Range and accuracy of `toF` on a byte. -/
theorem toF_range (x : Nat) (hx : x < 256) :
    (toF x).NonNeg ∧ (toF x).toRat ≤ 1 ∧
    |(toF x).toRat - (x : ℚ) / 255| ≤ (x : ℚ) / 255 / 2 ^ 23 := by
  obtain ⟨nx, hR⟩ := toF_spec x hx
  refine ⟨nx, ?_, ?_⟩
  · rcases Nat.lt_or_ge x 255 with h | h
    · have hq : (x : ℚ) ≤ 254 := by
        have : x ≤ 254 := by omega
        exact_mod_cast this
      have := hR.le_of_le 1 0 (by norm_num) (by norm_num) (by norm_num; linarith)
      simpa using this
    · have : x = 255 := by omega
      subst this
      rw [toF_255]
      simp only [DlScalar.toRat]
      norm_num
  · rcases Nat.eq_zero_or_pos x with h | h
    · subst h
      rw [toF_zero]
      simp [DlScalar.toRat]
    · obtain ⟨b0, b1⟩ := toF_bounds x h hx
      have hx1 : (1 : ℚ) ≤ x := by exact_mod_cast h
      rw [abs_le]
      constructor
      · norm_num at b0 ⊢
        linarith
      · norm_num at b1 ⊢
        linarith

/-- Through `toF` and back through `toC` a byte is unchanged. -/
theorem toC_toF (x : Nat) (hx : x < 256) : toC (toF x) = some x := by
  obtain ⟨nx, -⟩ := toF_spec x hx
  rcases Nat.eq_zero_or_pos x with h | h
  · subst h
    rw [toF_zero, toC_zero]
  obtain ⟨b0, b1⟩ := toF_bounds x h hx
  have hx1 : (1 : ℚ) ≤ x := by exact_mod_cast h
  have hx2 : (x : ℚ) ≤ 255 := by
    have : x ≤ 255 := by omega
    exact_mod_cast this
  obtain ⟨nw, hRw⟩ := DlScalar.mul_nonneg nx ofInt255_nonneg (by
    rw [ofInt255_toRat]
    have : (2 : ℚ) ^ (127 : Int) = 2 ^ 127 := by norm_num
    rw [this]
    norm_num at b1 ⊢
    linarith)
  rw [ofInt255_toRat] at hRw
  have hwb := hRw.bounds (by
    rw [zpow_neg]
    norm_num at b0 ⊢
    linarith)
  unfold toC
  apply DlScalar.toUInt8_round nw x (by omega)
  · norm_num at b0 hwb ⊢
    linarith [hwb.1]
  · norm_num at b1 hwb ⊢
    linarith [hwb.2]

end DlColor

namespace DlColor

/-- A colour is rebuilt from its four channels. -/
theorem ofUInt32_pack_channels (c : DlColor) :
    ofUInt32 (c.getAlpha <<< 24 ||| c.getRed <<< 16 ||| c.getGreen <<< 8 ||| c.getBlue) = c := by
  apply ext_argb
  have hx := c.lt
  simp only [ofUInt32]
  rw [pack_eq _ c.getRed_lt c.getGreen_lt c.getBlue_lt, getAlpha_eq, getRed_eq, getGreen_eq,
    getBlue_eq]
  omega

/-- Setting alpha to the alpha the colour already has changes nothing. -/
theorem withAlpha_getAlpha (c : DlColor) : c.withAlpha c.getAlpha = c := by
  apply ext_argb
  have hx := c.lt
  have m : (0x00FFFFFF : Nat) = 2 ^ 24 - 1 := by norm_num
  have h1 : 2 ^ 24 * c.getAlpha + c.argb_ % 2 ^ 24 = 2 ^ 24 * c.getAlpha ||| c.argb_ % 2 ^ 24 :=
    Nat.mul_add_lt_is_or (Nat.mod_lt _ (by norm_num)) _
  simp only [withAlpha, ofUInt32]
  rw [m, Nat.and_pow_two_sub_one_eq_mod, Nat.shiftLeft_eq, Nat.or_comm, Nat.mul_comm, ← h1,
    getAlpha_eq]
  omega

theorem ofInt_natCast_eq_fin (k : Nat) (hk : k < 2 ^ 24) :
    ∃ m q : Int, DlScalar.ofInt (k : Int) = DlScalar.fin m q ∧ 0 ≤ m ∧
      (DlScalar.fin m q).toRat = k := by
  obtain ⟨h1, h2⟩ := DlScalar.ofInt_natCast k hk
  cases h : DlScalar.ofInt (k : Int) with
  | inf n => rw [h] at h1; exact absurd h1 (by simp [DlScalar.NonNeg])
  | nan => rw [h] at h1; exact absurd h1 (by simp [DlScalar.NonNeg])
  | fin m q =>
    rw [h] at h1 h2
    exact ⟨m, q, rfl, h1, h2⟩

theorem round_zero : (DlScalar.fin 0 0).round.toUInt8 = some 0 := by decide

/-- The general expression of `modulateOpacity` at the factor `0`. -/
theorem modulateOpacityGeneral_zero (c : DlColor) :
    c.modulateOpacityGeneral (DlScalar.ofInt 0) = some (c.withAlpha 0) := by
  obtain ⟨m, q, h, -, -⟩ := ofInt_natCast_eq_fin c.getAlpha (by have := c.getAlpha_le; omega)
  simp only [modulateOpacityGeneral, h, DlScalar.ofInt_zero, fin_mul_zero, round_zero,
    Option.map_some']

/-- The general expression of `modulateOpacity` at the factor `1`. -/
theorem modulateOpacityGeneral_one (c : DlColor) :
    c.modulateOpacityGeneral (DlScalar.ofInt 1) = some c := by
  have hA := c.getAlpha_le
  obtain ⟨na, va⟩ := DlScalar.ofInt_natCast c.getAlpha (by omega)
  have n1 : (DlScalar.ofInt 1).NonNeg := by rw [DlScalar.ofInt_one]; simp [DlScalar.NonNeg]
  have v1 : (DlScalar.ofInt 1).toRat = 1 := by
    rw [DlScalar.ofInt_one]
    simp only [DlScalar.toRat]
    norm_num
  have hAq : (c.getAlpha : ℚ) ≤ 255 := by exact_mod_cast hA
  obtain ⟨np, hR⟩ := DlScalar.mul_nonneg na n1 (by
    rw [va, v1]
    have : (2 : ℚ) ^ (127 : Int) = 2 ^ 127 := by norm_num
    rw [this]
    norm_num
    linarith)
  rw [va, v1, mul_one] at hR
  have hex := hR.exact c.getAlpha 0 (by norm_num) (by omega) (by simp)
  have hconv := DlScalar.toUInt8_round np c.getAlpha hA (by rw [hex]; linarith)
    (by rw [hex]; linarith)
  simp only [modulateOpacityGeneral, hconv, Option.map_some', withAlpha_getAlpha]

/-- The general expression of `premultipliedArgb` on an opaque colour. -/
theorem premultipliedArgbGeneral_opaque (c : DlColor) (h : c.getAlpha = 255) :
    c.premultipliedArgbGeneral = some c.argb_ := by
  have hx := c.lt
  have e : ∀ x : Nat, x < 256 → (2 * x * 255 + 255) / 510 = x := by
    intro x _; omega
  simp only [premultipliedArgbGeneral, getRedF, getGreenF, getBlueF, getAlphaF, h,
    premul_channel _ 255 c.getRed_lt (by norm_num),
    premul_channel _ 255 c.getGreen_lt (by norm_num),
    premul_channel _ 255 c.getBlue_lt (by norm_num),
    e _ c.getRed_lt, e _ c.getGreen_lt, e _ c.getBlue_lt]
  simp only [Option.bind_eq_bind, Option.some_bind, Option.pure_def]
  rw [premul_pack_eq c.argb_ c.lt c.getRed_lt c.getGreen_lt c.getBlue_lt, getRed_eq,
    getGreen_eq, getBlue_eq]
  congr 1
  omega

end DlColor

namespace DlColor

/-- The three branches of `modulateOpacity` on a factor that is not a NaN. -/
theorem modulate_cases (c : DlColor) (f : DlScalar) (hf : f ≠ DlScalar.nan) :
    (f.le (DlScalar.ofInt 0) = true ∧ c.modulateOpacity f = some (c.withAlpha 0)) ∨
    (f.le (DlScalar.ofInt 0) = false ∧ (DlScalar.ofInt 1).le f = true ∧
      c.modulateOpacity f = some c) ∨
    (∃ m e : Int, f = DlScalar.fin m e ∧ 0 < (DlScalar.fin m e).toRat ∧
      (DlScalar.fin m e).toRat < 1) := by
  cases h0 : f.le (DlScalar.ofInt 0) with
  | true => exact Or.inl ⟨rfl, by simp [modulateOpacity, h0]⟩
  | false =>
    cases h1 : (DlScalar.ofInt 1).le f with
    | true => exact Or.inr (Or.inl ⟨rfl, rfl, by simp [modulateOpacity, h0, h1]⟩)
    | false =>
      cases f with
      | nan => exact absurd rfl hf
      | inf neg =>
        rw [DlScalar.ofInt_zero] at h0
        rw [DlScalar.ofInt_one] at h1
        simp only [DlScalar.le] at h0 h1
        cases neg <;> simp_all
      | fin m e =>
        refine Or.inr (Or.inr ⟨m, e, rfl, ?_, ?_⟩)
        · rw [Bool.eq_false_iff, Ne, DlScalar.le_zero_iff] at h0
          exact not_le.mp h0
        · rw [Bool.eq_false_iff, Ne, DlScalar.one_le_iff] at h1
          exact not_le.mp h1

/-- On a factor that is not a NaN, `modulateOpacity` replaces alpha by a byte that is
at most the alpha of the colour. -/
theorem modulateOpacity_defined (c : DlColor) (f : DlScalar) (hf : f ≠ DlScalar.nan) :
    ∃ n : Nat, n ≤ c.getAlpha ∧ c.modulateOpacity f = some (c.withAlpha n) := by
  rcases modulate_cases c f hf with ⟨-, h⟩ | ⟨-, -, h⟩ | ⟨m, e, rfl, g0, g1⟩
  · exact ⟨0, Nat.zero_le _, h⟩
  · exact ⟨c.getAlpha, le_rfl, by rw [withAlpha_getAlpha]; exact h⟩
  · obtain ⟨-, -, -, hn, hmod⟩ := modulate_mid c m e g0 g1
    exact ⟨_, hn, hmod⟩

end DlColor

/-- Ties of `nearestEven` go to an even integer. -/
theorem nearestEven_even (num den : Nat) (hden : 0 < den)
    (h : 2 * (nearestEven num den * den) = 2 * num + den ∨
         2 * num = 2 * (nearestEven num den * den) + den) :
    nearestEven num den % 2 = 0 := by
  have hdm := Nat.div_add_mod num den
  have hr := Nat.mod_lt num hden
  have e1 : (num / den + 1) * den = den * (num / den) + den := by ring
  have e0 : num / den * den = den * (num / den) := Nat.mul_comm _ _
  unfold nearestEven at h ⊢
  simp only [] at h ⊢
  split_ifs at h ⊢ with h1 h2 h3
  · omega
  · omega
  · exact h3
  · omega

/-- The nearest integer with ties to even, in terms of the rational quotient. -/
theorem nearestEven_props (num den : Nat) (hden : 0 < den) :
    |(nearestEven num den : ℚ) - (num : ℚ) / den| ≤ 1 / 2 ∧
    (|(nearestEven num den : ℚ) - (num : ℚ) / den| = 1 / 2 → nearestEven num den % 2 = 0) := by
  obtain ⟨s1, s2, -, -⟩ := nearestEven_spec num den hden
  have hdenq : (0 : ℚ) < (den : ℚ) := by exact_mod_cast hden
  have c1 : (2 : ℚ) * ((nearestEven num den : ℚ) * den) ≤ 2 * num + den := by
    exact_mod_cast s1
  have c2 : (2 : ℚ) * num ≤ 2 * ((nearestEven num den : ℚ) * den) + den := by
    exact_mod_cast s2
  have ht : (num : ℚ) = (num : ℚ) / den * den := by field_simp
  set t : ℚ := (num : ℚ) / den with htdef
  have b1 : (nearestEven num den : ℚ) - t ≤ 1 / 2 := by
    by_contra hc
    push_neg at hc
    have := mul_lt_mul_of_pos_right hc hdenq
    rw [ht] at c1
    linarith
  have b2 : -(1 / 2) ≤ (nearestEven num den : ℚ) - t := by
    by_contra hc
    push_neg at hc
    have := mul_lt_mul_of_pos_right hc hdenq
    rw [ht] at c2
    linarith
  refine ⟨abs_le.mpr ⟨b2, b1⟩, ?_⟩
  intro htie
  apply nearestEven_even num den hden
  rcases abs_eq (by norm_num : (0 : ℚ) ≤ 1 / 2) |>.mp htie with h | h
  · left
    have : (2 : ℚ) * ((nearestEven num den : ℚ) * den) = 2 * num + den := by
      have h' : (nearestEven num den : ℚ) = t + 1 / 2 := by linarith
      have e : (2 : ℚ) * ((t + 1 / 2) * den) = 2 * (t * den) + den := by ring
      rw [h', e, ← ht]
    exact_mod_cast this
  · right
    have : (2 : ℚ) * num = 2 * ((nearestEven num den : ℚ) * den) + den := by
      have h' : (nearestEven num den : ℚ) = t - 1 / 2 := by linarith
      have e : (2 : ℚ) * ((t - 1 / 2) * den) + den = 2 * (t * den) := by ring
      rw [h', e, ← ht]
    exact_mod_cast this

/-- The two properties determine the integer. -/
theorem nearest_unique (t : ℚ) (m m' : Nat)
    (h1 : |(m : ℚ) - t| ≤ 1 / 2) (h2 : |(m : ℚ) - t| = 1 / 2 → m % 2 = 0)
    (h1' : |(m' : ℚ) - t| ≤ 1 / 2) (h2' : |(m' : ℚ) - t| = 1 / 2 → m' % 2 = 0) :
    m = m' := by
  obtain ⟨a1, a2⟩ := abs_le.mp h1
  obtain ⟨b1, b2⟩ := abs_le.mp h1'
  rcases Nat.lt_trichotomy m m' with h | h | h
  · exfalso
    have hq : (m : ℚ) + 1 ≤ m' := by exact_mod_cast h
    have e1 : (m : ℚ) - t = -(1 / 2) := by linarith
    have e2 : (m' : ℚ) - t = 1 / 2 := by linarith
    have hm : (m' : ℚ) = m + 1 := by linarith
    have hm' : m' = m + 1 := by exact_mod_cast hm
    have p1 := h2 (by rw [e1]; norm_num)
    have p2 := h2' (by rw [e2]; norm_num)
    omega
  · exact h
  · exfalso
    have hq : (m' : ℚ) + 1 ≤ m := by exact_mod_cast h
    have e1 : (m : ℚ) - t = 1 / 2 := by linarith
    have e2 : (m' : ℚ) - t = -(1 / 2) := by linarith
    have hm : (m : ℚ) = m' + 1 := by linarith
    have hm' : m = m' + 1 := by exact_mod_cast hm
    have p1 := h2 (by rw [e1]; norm_num)
    have p2 := h2' (by rw [e2]; norm_num)
    omega

/-- The result of `nearestEven` depends on the quotient only. -/
theorem nearestEven_congr (num1 den1 num2 den2 : Nat) (h1 : 0 < den1) (h2 : 0 < den2)
    (h : (num1 : ℚ) / den1 = (num2 : ℚ) / den2) :
    nearestEven num1 den1 = nearestEven num2 den2 := by
  obtain ⟨a1, a2⟩ := nearestEven_props num1 den1 h1
  obtain ⟨b1, b2⟩ := nearestEven_props num2 den2 h2
  rw [h] at a1 a2
  exact nearest_unique _ _ _ a1 a2 b1 b2

/-- The binary exponent of a positive rational is unique. -/
theorem binade_unique {x : ℚ} {E1 E2 : Int} (a1 : (2 : ℚ) ^ E1 ≤ x) (a2 : x < 2 ^ (E1 + 1))
    (b1 : (2 : ℚ) ^ E2 ≤ x) (b2 : x < 2 ^ (E2 + 1)) : E1 = E2 := by
  have l1 := (zpow_lt_zpow_iff_right₀ (by norm_num : (1 : ℚ) < 2)).mp (lt_of_le_of_lt a1 b2)
  have l2 := (zpow_lt_zpow_iff_right₀ (by norm_num : (1 : ℚ) < 2)).mp (lt_of_le_of_lt b1 a2)
  omega

/-- The result of `roundFrac` depends on the exact value only, not on the way it is
written as `(n / d) * 2 ^ e`. -/
theorem roundFrac_congr (neg : Bool) (n1 d1 : Nat) (e1 : Int) (n2 d2 : Nat) (e2 : Int)
    (hn1 : 0 < n1) (hd1 : 0 < d1) (hn2 : 0 < n2) (hd2 : 0 < d2)
    (hx : (n1 : ℚ) / d1 * 2 ^ e1 = (n2 : ℚ) / d2 * 2 ^ e2) :
    roundFrac neg n1 d1 e1 = roundFrac neg n2 d2 e2 := by
  have h2 : (0 : ℚ) < 2 := by norm_num
  have h2' : (2 : ℚ) ≠ 0 := by norm_num
  obtain ⟨k1, k2⟩ := floorLog2_spec n1 d1 hn1 hd1
  obtain ⟨l1, l2⟩ := floorLog2_spec n2 d2 hn2 hd2
  have hE : floorLog2 n1 d1 + e1 = floorLog2 n2 d2 + e2 := by
    apply binade_unique (x := (n1 : ℚ) / d1 * 2 ^ e1)
    · rw [zpow_add₀ h2']
      exact mul_le_mul_of_nonneg_right k1 (le_of_lt (zpow_pos h2 _))
    · rw [show floorLog2 n1 d1 + e1 + 1 = floorLog2 n1 d1 + 1 + e1 by ring, zpow_add₀ h2']
      exact mul_lt_mul_of_pos_right k2 (zpow_pos h2 _)
    · rw [hx, zpow_add₀ h2']
      exact mul_le_mul_of_nonneg_right l1 (le_of_lt (zpow_pos h2 _))
    · rw [hx, show floorLog2 n2 d2 + e2 + 1 = floorLog2 n2 d2 + 1 + e2 by ring, zpow_add₀ h2']
      exact mul_lt_mul_of_pos_right l2 (zpow_pos h2 _)
  have hq : max (floorLog2 n1 d1 + e1 - 23) (-149) = max (floorLog2 n2 d2 + e2 - 23) (-149) := by
    rw [hE]
  have hm : nearestEven (shl n1 (e1 - max (floorLog2 n1 d1 + e1 - 23) (-149)))
        (shl d1 (max (floorLog2 n1 d1 + e1 - 23) (-149) - e1))
      = nearestEven (shl n2 (e2 - max (floorLog2 n2 d2 + e2 - 23) (-149)))
        (shl d2 (max (floorLog2 n2 d2 + e2 - 23) (-149) - e2)) := by
    apply nearestEven_congr _ _ _ _ (shl_pos hd1 _) (shl_pos hd2 _)
    have s1 := shl_div_shl n1 d1 (e1 - max (floorLog2 n1 d1 + e1 - 23) (-149)) hd1
    have s2 := shl_div_shl n2 d2 (e2 - max (floorLog2 n2 d2 + e2 - 23) (-149)) hd2
    rw [neg_sub] at s1 s2
    rw [s1, s2, zpow_sub₀ h2', zpow_sub₀ h2', hq]
    rw [← mul_div_assoc, ← mul_div_assoc, hx]
  have ne1 : n1 ≠ 0 := by omega
  have ne2 : n2 ≠ 0 := by omega
  simp only [roundFrac, ne1, ne2, if_false]
  rw [hm, hq]

/-- Rounding is monotone: a strictly smaller exact value does not round above a
larger one. -/
theorem Rounds.mono_strict {x1 y1 x2 y2 : ℚ} (h1 : Rounds x1 y1) (h2 : Rounds x2 y2)
    (hx : x1 < x2) : y1 ≤ y2 := by
  obtain ⟨q1, m1, hq1, hqx1, hlt1, hy1, habs1, hup1, hlo1⟩ := h1
  obtain ⟨q2, m2, hq2, hqx2, hlt2, hy2, habs2, hup2, hlo2⟩ := h2
  have h2pos : (0 : ℚ) < 2 := by norm_num
  have h2' : (2 : ℚ) ≠ 0 := by norm_num
  -- the quantum grows with the value
  have hq12 : q1 ≤ q2 := by
    rcases hqx1 with h | h
    · omega
    · have hlt : (2 : ℚ) ^ (q1 + 23) < 2 ^ (q2 + 24) := by linarith
      have := (zpow_lt_zpow_iff_right₀ (by norm_num : (1 : ℚ) < 2)).mp hlt
      omega
  by_contra hc
  push_neg at hc
  -- `y2` is on the grid of `x1`, so `x1` lies above `y2`
  have hgrid : y2 = ((m2 * 2 ^ (q2 - q1).toNat : Nat) : ℚ) * 2 ^ q1 := by
    rw [hy2]; exact grid_coarsen m2 hq12
  have hx1y2 : y2 < x1 := by
    by_contra hcc
    push_neg at hcc
    have := hup1 _ (by rw [← hgrid]; exact hcc)
    rw [← hgrid] at this
    linarith
  rcases lt_or_eq_of_le hq12 with hlt | heq
  · -- different quanta: a power of two separates the two values
    have hq2ne : (2 : ℚ) ^ (q2 + 23) ≤ x2 := by
      rcases hqx2 with h | h
      · omega
      · exact h
    have hpow : (2 : ℚ) ^ (q2 + 23) = ((2 ^ 23 : Nat) : ℚ) * 2 ^ q2 := by
      rw [zpow_add₀ h2']
      norm_num
      ring
    have hy2ge : (2 : ℚ) ^ (q2 + 23) ≤ y2 := by
      rw [hpow] at hq2ne ⊢
      exact hlo2 _ hq2ne
    have hx1lt : x1 < 2 ^ (q2 + 23) :=
      lt_of_lt_of_le hlt1 (zpow_le_zpow_right₀ (by norm_num) (by omega))
    linarith
  · -- same quantum: two distinct grid points are a quantum apart
    subst heq
    have hpq : (0 : ℚ) < 2 ^ q1 := zpow_pos h2pos q1
    have hy1x2 : x2 < y1 := by
      by_contra hcc
      push_neg at hcc
      have := hlo2 m1 (by rw [← hy1]; exact hcc)
      rw [← hy1] at this
      linarith
    have hm : m2 < m1 := by
      rw [hy1, hy2] at hc
      have := lt_of_mul_lt_mul_right hc (le_of_lt hpq)
      exact_mod_cast this
    have hstep : y2 + 2 ^ q1 ≤ y1 := by
      rw [hy1, hy2]
      have : (m2 : ℚ) + 1 ≤ m1 := by exact_mod_cast hm
      nlinarith
    have a1 := (abs_le.mp habs1).2
    have a2 := (abs_le.mp habs2).1
    linarith

namespace DlScalar

theorem NonNeg.eq_fin {a : DlScalar} (h : a.NonNeg) :
    ∃ m e : Int, a = fin m e ∧ 0 ≤ m := by
  cases a with
  | fin m e => exact ⟨m, e, rfl, h⟩
  | inf n => exact absurd h (by simp [NonNeg])
  | nan => exact absurd h (by simp [NonNeg])

/-- The product of non-negative scalars depends on the exact product only. -/
theorem mul_congr {a b1 b2 : DlScalar} (ha : a.NonNeg) (hb1 : b1.NonNeg) (hb2 : b2.NonNeg)
    (h : a.toRat * b1.toRat = a.toRat * b2.toRat) : a.mul b1 = a.mul b2 := by
  obtain ⟨A, qa, rfl, hA⟩ := ha.eq_fin
  obtain ⟨m1, e1, rfl, hm1⟩ := hb1.eq_fin
  obtain ⟨m2, e2, rfl, hm2⟩ := hb2.eq_fin
  have h2' : (2 : ℚ) ≠ 0 := by norm_num
  have cA : ((A.natAbs : Nat) : ℚ) = (A : ℚ) := by
    rw [← Int.cast_natCast, Int.natAbs_of_nonneg hA]
  have c1 : ((m1.natAbs : Nat) : ℚ) = (m1 : ℚ) := by
    rw [← Int.cast_natCast, Int.natAbs_of_nonneg hm1]
  have c2 : ((m2.natAbs : Nat) : ℚ) = (m2 : ℚ) := by
    rw [← Int.cast_natCast, Int.natAbs_of_nonneg hm2]
  have v1 : ((A.natAbs * m1.natAbs : Nat) : ℚ) / (1 : Nat) * 2 ^ (qa + e1)
      = (fin A qa).toRat * (fin m1 e1).toRat := by
    simp only [toRat]
    rw [zpow_add₀ h2']
    push_cast
    rw [cA, c1]
    ring
  have v2 : ((A.natAbs * m2.natAbs : Nat) : ℚ) / (1 : Nat) * 2 ^ (qa + e2)
      = (fin A qa).toRat * (fin m2 e2).toRat := by
    simp only [toRat]
    rw [zpow_add₀ h2']
    push_cast
    rw [cA, c2]
    ring
  have d0 : decide (A < 0) = false := by simp; omega
  have d1 : decide (m1 < 0) = false := by simp; omega
  have d2 : decide (m2 < 0) = false := by simp; omega
  simp only [mul, d0, d1, d2]
  have hv : ((A.natAbs * m1.natAbs : Nat) : ℚ) / (1 : Nat) * 2 ^ (qa + e1)
      = ((A.natAbs * m2.natAbs : Nat) : ℚ) / (1 : Nat) * 2 ^ (qa + e2) := by
    rw [v1, v2, h]
  rcases Nat.eq_zero_or_pos (A.natAbs * m1.natAbs) with z1 | p1
  · -- the exact product is zero on both sides
    have z2 : A.natAbs * m2.natAbs = 0 := by
      rw [z1] at hv
      have hp : (0 : ℚ) < 2 ^ (qa + e2) := zpow_pos (by norm_num) _
      have : ((A.natAbs * m2.natAbs : Nat) : ℚ) = 0 := by
        have h0 : ((A.natAbs * m2.natAbs : Nat) : ℚ) / (1 : Nat) * 2 ^ (qa + e2) = 0 := by
          rw [← hv]; simp
        rcases mul_eq_zero.mp h0 with h' | h'
        · simpa using h'
        · exact absurd h' (ne_of_gt hp)
      exact_mod_cast this
    rw [z1, z2]
    simp [roundFrac]
  · have p2 : 0 < A.natAbs * m2.natAbs := by
      rcases Nat.eq_zero_or_pos (A.natAbs * m2.natAbs) with z2 | p2
      · exfalso
        rw [z2] at hv
        have hp : (0 : ℚ) < 2 ^ (qa + e1) := zpow_pos (by norm_num) _
        have h0 : ((A.natAbs * m1.natAbs : Nat) : ℚ) / (1 : Nat) * 2 ^ (qa + e1) = 0 := by
          rw [hv]; simp
        rcases mul_eq_zero.mp h0 with h' | h'
        · have : ((A.natAbs * m1.natAbs : Nat) : ℚ) = 0 := by simpa using h'
          have : A.natAbs * m1.natAbs = 0 := by exact_mod_cast this
          omega
        · exact absurd h' (ne_of_gt hp)
      · exact p2
    exact roundFrac_congr _ _ 1 _ _ 1 _ p1 (by norm_num) p2 (by norm_num) hv

/-- The product of non-negative scalars is monotone in the exact product. -/
theorem mul_mono {a b1 b2 : DlScalar} (ha : a.NonNeg) (hb1 : b1.NonNeg) (hb2 : b2.NonNeg)
    (h : a.toRat * b1.toRat ≤ a.toRat * b2.toRat)
    (hlt : a.toRat * b2.toRat < 2 ^ (127 : Int)) :
    (a.mul b1).toRat ≤ (a.mul b2).toRat := by
  rcases lt_or_eq_of_le h with hs | he
  · obtain ⟨-, r1⟩ := mul_nonneg ha hb1 (lt_trans hs hlt)
    obtain ⟨-, r2⟩ := mul_nonneg ha hb2 hlt
    exact r1.mono_strict r2 hs
  · rw [mul_congr ha hb1 hb2 he]

end DlScalar

namespace DlScalar

/-- The comparison `<=` of scalars is transitive. -/
theorem le_trans' {a b c : DlScalar} (h1 : a.le b = true) (h2 : b.le c = true) :
    a.le c = true := by
  cases a with
  | nan => simp [le] at h1
  | inf na =>
    cases b with
    | nan => simp [le] at h1
    | inf nb =>
      cases c with
      | nan => simp [le] at h2
      | inf nc =>
        simp only [le] at h1 h2 ⊢
        cases na <;> cases nb <;> cases nc <;> simp_all
      | fin mc ec =>
        simp only [le] at h1 h2 ⊢
        cases na <;> cases nb <;> simp_all
    | fin mb eb =>
      cases c with
      | nan => simp [le] at h2
      | inf nc =>
        simp only [le] at h1 h2 ⊢
        cases na <;> cases nc <;> simp_all
      | fin mc ec =>
        simp only [le] at h1 ⊢
        exact h1
  | fin ma ea =>
    cases b with
    | nan => simp [le] at h1
    | inf nb =>
      cases c with
      | nan => simp [le] at h2
      | inf nc =>
        simp only [le] at h1 h2 ⊢
        cases nb <;> cases nc <;> simp_all
      | fin mc ec =>
        simp only [le] at h1 h2
        cases nb <;> simp_all
    | fin mb eb =>
      cases c with
      | nan => simp [le] at h2
      | inf nc =>
        simp only [le] at h2 ⊢
        exact h2
      | fin mc ec =>
        rw [le_fin_iff] at h1 h2 ⊢
        exact h1.trans h2

end DlScalar

namespace DlColor

/-- The new alpha of `modulateOpacity` is monotone in the factor. -/
theorem modulate_alpha_mono (c : DlColor) (f1 f2 : DlScalar) (hle : f1.le f2 = true) :
    ∃ n1 n2 : Nat, n1 ≤ n2 ∧ n2 ≤ c.getAlpha ∧
      c.modulateOpacity f1 = some (c.withAlpha n1) ∧
      c.modulateOpacity f2 = some (c.withAlpha n2) := by
  have hf1 : f1 ≠ DlScalar.nan := by
    rintro rfl
    simp [DlScalar.le] at hle
  have hf2 : f2 ≠ DlScalar.nan := by
    rintro rfl
    cases f1 <;> simp [DlScalar.le] at hle
  have l10 : (DlScalar.ofInt 1).le (DlScalar.ofInt 0) = false := by decide
  have hA := c.getAlpha_le
  rcases modulate_cases c f1 hf1 with ⟨-, m1⟩ | ⟨-, b1, m1⟩ | ⟨ma, ea, rfl, g0, g1⟩
  · -- the first factor is `<= 0`
    obtain ⟨n2, hn2, m2⟩ := modulateOpacity_defined c f2 hf2
    exact ⟨0, n2, Nat.zero_le _, hn2, m1, m2⟩
  · -- the first factor is `>= 1`, and so is the second
    have b2 : (DlScalar.ofInt 1).le f2 = true := DlScalar.le_trans' b1 hle
    rcases modulate_cases c f2 hf2 with ⟨a2, -⟩ | ⟨-, -, m2⟩ | ⟨mb, eb, rfl, -, k1⟩
    · have := DlScalar.le_trans' b2 a2
      rw [l10] at this
      exact absurd this (by simp)
    · exact ⟨c.getAlpha, c.getAlpha, le_rfl, le_rfl,
        by rw [withAlpha_getAlpha]; exact m1, by rw [withAlpha_getAlpha]; exact m2⟩
    · rw [DlScalar.one_le_iff] at b2
      linarith
  · -- the first factor is strictly between `0` and `1`
    obtain ⟨np1, -, -, hn1, hm1⟩ := modulate_mid c ma ea g0 g1
    rcases modulate_cases c f2 hf2 with ⟨a2, -⟩ | ⟨-, -, m2⟩ | ⟨mb, eb, rfl, k0, k1⟩
    · have := DlScalar.le_trans' hle a2
      rw [DlScalar.le_zero_iff] at this
      linarith
    · exact ⟨_, c.getAlpha, hn1, le_rfl, hm1, by rw [withAlpha_getAlpha]; exact m2⟩
    · obtain ⟨np2, -, -, hn2, hm2⟩ := modulate_mid c mb eb k0 k1
      refine ⟨_, _, ?_, hn2, hm1, hm2⟩
      rw [DlScalar.le_fin_iff] at hle
      obtain ⟨na, va⟩ := DlScalar.ofInt_natCast c.getAlpha (by omega)
      have nf1 : (DlScalar.fin ma ea).NonNeg := by
        have hp : (0 : ℚ) < 2 ^ ea := zpow_pos (by norm_num) ea
        simp only [DlScalar.toRat] at g0
        simp only [DlScalar.NonNeg]
        have : (0 : ℚ) < ma := by
          by_contra hc
          push_neg at hc
          have := mul_nonpos_of_nonpos_of_nonneg hc (le_of_lt hp)
          linarith
        have : (0 : Int) < ma := by exact_mod_cast this
        omega
      have nf2 : (DlScalar.fin mb eb).NonNeg := by
        have hp : (0 : ℚ) < 2 ^ eb := zpow_pos (by norm_num) eb
        simp only [DlScalar.toRat] at k0
        simp only [DlScalar.NonNeg]
        have : (0 : ℚ) < mb := by
          by_contra hc
          push_neg at hc
          have := mul_nonpos_of_nonpos_of_nonneg hc (le_of_lt hp)
          linarith
        have : (0 : Int) < mb := by exact_mod_cast this
        omega
      have hAq : (c.getAlpha : ℚ) ≤ 255 := by exact_mod_cast hA
      have hA0 : (0 : ℚ) ≤ c.getAlpha := by positivity
      have hmono := DlScalar.mul_mono na nf1 nf2
        (by rw [va]; exact mul_le_mul_of_nonneg_left hle hA0)
        (by
          rw [va]
          have : (2 : ℚ) ^ (127 : Int) = 2 ^ 127 := by norm_num
          rw [this]
          norm_num
          nlinarith)
      have hfl : ⌊((DlScalar.ofInt c.getAlpha).mul (DlScalar.fin ma ea)).toRat + 1 / 2⌋
          ≤ ⌊((DlScalar.ofInt c.getAlpha).mul (DlScalar.fin mb eb)).toRat + 1 / 2⌋ :=
        Int.floor_le_floor (by linarith)
      exact Int.toNat_le_toNat hfl

end DlColor

namespace DlScalar

end DlScalar

namespace DlColor

end DlColor

/-! ## Properties -/

/-- C1: packing four 8-bit values as `a << 24 | r << 16 | g << 8 | b` and constructing
a colour from the packed value gives back exactly these four values through
`getAlpha`, `getRed`, `getGreen` and `getBlue`. -/
theorem pack_unpack_roundtrip (a r g b : Nat)
    (ha : a < 256) (hr : r < 256) (hg : g < 256) (hb : b < 256) :
    (DlColor.ofUInt32 (a <<< 24 ||| r <<< 16 ||| g <<< 8 ||| b)).getAlpha = a ∧
    (DlColor.ofUInt32 (a <<< 24 ||| r <<< 16 ||| g <<< 8 ||| b)).getRed = r ∧
    (DlColor.ofUInt32 (a <<< 24 ||| r <<< 16 ||| g <<< 8 ||| b)).getGreen = g ∧
    (DlColor.ofUInt32 (a <<< 24 ||| r <<< 16 ||| g <<< 8 ||| b)).getBlue = b := by
  rw [DlColor.getAlpha_eq, DlColor.getRed_eq, DlColor.getGreen_eq, DlColor.getBlue_eq]
  simp only [DlColor.ofUInt32, pack_eq a hr hg hb]
  omega

theorem pack_unpack_roundtrip_witness :
    (DlColor.ofUInt32 (0x12 <<< 24 ||| 0x34 <<< 16 ||| 0x56 <<< 8 ||| 0x78)).getAlpha = 0x12 ∧
    (DlColor.ofUInt32 (0x12 <<< 24 ||| 0x34 <<< 16 ||| 0x56 <<< 8 ||| 0x78)).getRed = 0x34 ∧
    (DlColor.ofUInt32 (0x12 <<< 24 ||| 0x34 <<< 16 ||| 0x56 <<< 8 ||| 0x78)).getGreen = 0x56 ∧
    (DlColor.ofUInt32 (0x12 <<< 24 ||| 0x34 <<< 16 ||| 0x56 <<< 8 ||| 0x78)).getBlue = 0x78 :=
  pack_unpack_roundtrip 0x12 0x34 0x56 0x78 (by decide) (by decide) (by decide) (by decide)

/-- C2: each of `withAlpha`, `withRed`, `withGreen`, `withBlue` applied to an 8-bit
value `v` gives a colour whose named channel reads back as `v` and whose three
other channels are those of the original colour. -/
theorem with_channel_replaces_only_that_channel (c : DlColor) (v : Nat) (hv : v < 256) :
    ((c.withAlpha v).getAlpha = v ∧ (c.withAlpha v).getRed = c.getRed ∧
      (c.withAlpha v).getGreen = c.getGreen ∧ (c.withAlpha v).getBlue = c.getBlue) ∧
    ((c.withRed v).getAlpha = c.getAlpha ∧ (c.withRed v).getRed = v ∧
      (c.withRed v).getGreen = c.getGreen ∧ (c.withRed v).getBlue = c.getBlue) ∧
    ((c.withGreen v).getAlpha = c.getAlpha ∧ (c.withGreen v).getRed = c.getRed ∧
      (c.withGreen v).getGreen = v ∧ (c.withGreen v).getBlue = c.getBlue) ∧
    ((c.withBlue v).getAlpha = c.getAlpha ∧ (c.withBlue v).getRed = c.getRed ∧
      (c.withBlue v).getGreen = c.getGreen ∧ (c.withBlue v).getBlue = v) := by
  have hx := c.lt
  have hA : ∀ d : DlColor, d.getAlpha = (d.argb_ >>> 24) &&& 0xFF := fun d => shr24_eq d.lt
  have hB : ∀ d : DlColor, d.getBlue = (d.argb_ >>> 0) &&& 0xFF := fun _ => rfl
  simp only [hA, hB]
  simp only [DlColor.getRed, DlColor.getGreen, DlColor.withAlpha, DlColor.withRed,
    DlColor.withGreen, DlColor.withBlue, DlColor.ofUInt32]
  refine ⟨⟨?_, ?_, ?_, ?_⟩, ⟨?_, ?_, ?_, ?_⟩, ⟨?_, ?_, ?_, ?_⟩, ⟨?_, ?_, ?_, ?_⟩⟩
  · exact field_read _ v _ 24 hv (by decide) (by decide)
  · exact field_keep _ v _ 24 16 hv (by decide) (by decide) (by decide)
  · exact field_keep _ v _ 24 8 hv (by decide) (by decide) (by decide)
  · exact field_keep _ v _ 24 0 hv (by decide) (by decide) (by decide)
  · exact field_keep _ v _ 16 24 hv (by decide) (by decide) (by decide)
  · exact field_read _ v _ 16 hv (by decide) (by decide)
  · exact field_keep _ v _ 16 8 hv (by decide) (by decide) (by decide)
  · exact field_keep _ v _ 16 0 hv (by decide) (by decide) (by decide)
  · exact field_keep _ v _ 8 24 hv (by decide) (by decide) (by decide)
  · exact field_keep _ v _ 8 16 hv (by decide) (by decide) (by decide)
  · exact field_read _ v _ 8 hv (by decide) (by decide)
  · exact field_keep _ v _ 8 0 hv (by decide) (by decide) (by decide)
  · exact field_keep _ v _ 0 24 hv (by decide) (by decide) (by decide)
  · exact field_keep _ v _ 0 16 hv (by decide) (by decide) (by decide)
  · exact field_keep _ v _ 0 8 hv (by decide) (by decide) (by decide)
  · exact field_read _ v _ 0 hv (by decide) (by decide)

theorem with_channel_replaces_only_that_channel_witness :
    (((DlColor.ofUInt32 0x80402010).withAlpha 0x7F).getAlpha = 0x7F ∧
      ((DlColor.ofUInt32 0x80402010).withAlpha 0x7F).getRed
        = (DlColor.ofUInt32 0x80402010).getRed ∧
      ((DlColor.ofUInt32 0x80402010).withAlpha 0x7F).getGreen
        = (DlColor.ofUInt32 0x80402010).getGreen ∧
      ((DlColor.ofUInt32 0x80402010).withAlpha 0x7F).getBlue
        = (DlColor.ofUInt32 0x80402010).getBlue) ∧
    (((DlColor.ofUInt32 0x80402010).withRed 0x7F).getAlpha
        = (DlColor.ofUInt32 0x80402010).getAlpha ∧
      ((DlColor.ofUInt32 0x80402010).withRed 0x7F).getRed = 0x7F ∧
      ((DlColor.ofUInt32 0x80402010).withRed 0x7F).getGreen
        = (DlColor.ofUInt32 0x80402010).getGreen ∧
      ((DlColor.ofUInt32 0x80402010).withRed 0x7F).getBlue
        = (DlColor.ofUInt32 0x80402010).getBlue) ∧
    (((DlColor.ofUInt32 0x80402010).withGreen 0x7F).getAlpha
        = (DlColor.ofUInt32 0x80402010).getAlpha ∧
      ((DlColor.ofUInt32 0x80402010).withGreen 0x7F).getRed
        = (DlColor.ofUInt32 0x80402010).getRed ∧
      ((DlColor.ofUInt32 0x80402010).withGreen 0x7F).getGreen = 0x7F ∧
      ((DlColor.ofUInt32 0x80402010).withGreen 0x7F).getBlue
        = (DlColor.ofUInt32 0x80402010).getBlue) ∧
    (((DlColor.ofUInt32 0x80402010).withBlue 0x7F).getAlpha
        = (DlColor.ofUInt32 0x80402010).getAlpha ∧
      ((DlColor.ofUInt32 0x80402010).withBlue 0x7F).getRed
        = (DlColor.ofUInt32 0x80402010).getRed ∧
      ((DlColor.ofUInt32 0x80402010).withBlue 0x7F).getGreen
        = (DlColor.ofUInt32 0x80402010).getGreen ∧
      ((DlColor.ofUInt32 0x80402010).withBlue 0x7F).getBlue = 0x7F) :=
  with_channel_replaces_only_that_channel (DlColor.ofUInt32 0x80402010) 0x7F (by decide)

/-- C3: `operator==` holds exactly when the packed values are identical, which holds
exactly when the four channels agree; colours that differ in some channel compare
unequal; `operator!=` is the negation of `operator==`, for a colour and for a raw
32-bit integer alike. -/
theorem eq_iff_argb_iff_channels (c1 c2 : DlColor) (n : Nat) :
    (c1.eq c2 = true ↔ c1.argb = c2.argb) ∧
    (c1.argb = c2.argb ↔
      (c1.getAlpha = c2.getAlpha ∧ c1.getRed = c2.getRed ∧
        c1.getGreen = c2.getGreen ∧ c1.getBlue = c2.getBlue)) ∧
    ((c1.getAlpha ≠ c2.getAlpha ∨ c1.getRed ≠ c2.getRed ∨
        c1.getGreen ≠ c2.getGreen ∨ c1.getBlue ≠ c2.getBlue) →
      c1.eq c2 = false ∧ c1.ne c2 = true) ∧
    c1.ne c2 = !(c1.eq c2) ∧
    (c1.eqRaw n = true ↔ c1.argb = n) ∧
    c1.neRaw n = !(c1.eqRaw n) := by
  have h1 := c1.lt
  have h2 := c2.lt
  have key : c1.argb_ = c2.argb_ ↔
      (c1.getAlpha = c2.getAlpha ∧ c1.getRed = c2.getRed ∧
        c1.getGreen = c2.getGreen ∧ c1.getBlue = c2.getBlue) := by
    simp only [DlColor.getAlpha_eq, DlColor.getRed_eq, DlColor.getGreen_eq,
      DlColor.getBlue_eq]
    omega
  refine ⟨?_, key, ?_, ?_, ?_, ?_⟩
  · simp [DlColor.eq, DlColor.argb]
  · intro h
    have hne : c1.argb_ ≠ c2.argb_ := by
      intro he
      have := key.mp he
      tauto
    simp [DlColor.eq, DlColor.ne, hne]
  · simp [DlColor.eq, DlColor.ne, bne]
  · simp [DlColor.eqRaw, DlColor.argb]
  · simp [DlColor.eqRaw, DlColor.neRaw, bne]

/-- C4: for an opaque colour `premultipliedArgb` returns the packed value itself. -/
theorem premultipliedArgb_opaque (c : DlColor) (h : c.getAlpha = 255) :
    c.isOpaque = true ∧ c.premultipliedArgb = some c.argb := by
  have ho : c.isOpaque = true := by simp [DlColor.isOpaque, h]
  refine ⟨ho, ?_⟩
  simp [DlColor.premultipliedArgb, ho, DlColor.argb]

theorem premultipliedArgb_opaque_witness :
    (DlColor.ofUInt32 0xFF336699).isOpaque = true ∧
    (DlColor.ofUInt32 0xFF336699).premultipliedArgb
      = some (DlColor.ofUInt32 0xFF336699).argb :=
  premultipliedArgb_opaque (DlColor.ofUInt32 0xFF336699) (by decide)

/-- C5: `premultipliedArgb` leaves alpha untouched: for every colour, opaque or not, it
returns a 32-bit value whose top 8 bits are the alpha of the colour. -/
theorem premultipliedArgb_keeps_alpha (c : DlColor) :
    ∃ v : Nat, c.premultipliedArgb = some v ∧ v < 4294967296 ∧ v >>> 24 = c.getAlpha := by
  cases h : c.isOpaque with
  | true =>
    refine ⟨c.argb_, ?_, c.lt, rfl⟩
    simp [DlColor.premultipliedArgb, h]
  | false =>
    have hA := c.getAlpha_le
    have hA' : c.getAlpha < 256 := by omega
    have hr := DlColor.premul_byte_lt c.getRed c.getAlpha c.getRed_lt hA'
    have hg := DlColor.premul_byte_lt c.getGreen c.getAlpha c.getGreen_lt hA'
    have hb := DlColor.premul_byte_lt c.getBlue c.getAlpha c.getBlue_lt hA'
    refine ⟨_, DlColor.premultipliedArgb_eq c h, by omega, ?_⟩
    rw [Nat.shiftRight_eq_div_pow]
    omega

/-- C6: for a colour that is not opaque, each of the red, green and blue channels of
`premultipliedArgb` is the integer nearest to `channel * alpha / 255`: it is
`(2 * channel * alpha + 255) / 510`, at distance less than one half from the exact
quotient (which is never halfway between two integers). -/
theorem premultipliedArgb_channels_nearest (c : DlColor) (h : c.isOpaque = false) :
    ∃ v : Nat, c.premultipliedArgb = some v ∧
      (DlColor.ofUInt32 v).getRed = (2 * c.getRed * c.getAlpha + 255) / 510 ∧
      (DlColor.ofUInt32 v).getGreen = (2 * c.getGreen * c.getAlpha + 255) / 510 ∧
      (DlColor.ofUInt32 v).getBlue = (2 * c.getBlue * c.getAlpha + 255) / 510 ∧
      |((DlColor.ofUInt32 v).getRed : ℚ) - (c.getRed : ℚ) * c.getAlpha / 255| < 1 / 2 ∧
      |((DlColor.ofUInt32 v).getGreen : ℚ) - (c.getGreen : ℚ) * c.getAlpha / 255| < 1 / 2 ∧
      |((DlColor.ofUInt32 v).getBlue : ℚ) - (c.getBlue : ℚ) * c.getAlpha / 255| < 1 / 2 := by
  have hA := c.getAlpha_le
  have hA' : c.getAlpha < 256 := by omega
  have hr := DlColor.premul_byte_lt c.getRed c.getAlpha c.getRed_lt hA'
  have hg := DlColor.premul_byte_lt c.getGreen c.getAlpha c.getGreen_lt hA'
  have hb := DlColor.premul_byte_lt c.getBlue c.getAlpha c.getBlue_lt hA'
  have er : (DlColor.ofUInt32 (c.getAlpha * 16777216
      + (2 * c.getRed * c.getAlpha + 255) / 510 * 65536
      + (2 * c.getGreen * c.getAlpha + 255) / 510 * 256
      + (2 * c.getBlue * c.getAlpha + 255) / 510)).getRed
      = (2 * c.getRed * c.getAlpha + 255) / 510 := by
    rw [DlColor.getRed_eq]; simp only [DlColor.ofUInt32]; omega
  have eg : (DlColor.ofUInt32 (c.getAlpha * 16777216
      + (2 * c.getRed * c.getAlpha + 255) / 510 * 65536
      + (2 * c.getGreen * c.getAlpha + 255) / 510 * 256
      + (2 * c.getBlue * c.getAlpha + 255) / 510)).getGreen
      = (2 * c.getGreen * c.getAlpha + 255) / 510 := by
    rw [DlColor.getGreen_eq]; simp only [DlColor.ofUInt32]; omega
  have eb : (DlColor.ofUInt32 (c.getAlpha * 16777216
      + (2 * c.getRed * c.getAlpha + 255) / 510 * 65536
      + (2 * c.getGreen * c.getAlpha + 255) / 510 * 256
      + (2 * c.getBlue * c.getAlpha + 255) / 510)).getBlue
      = (2 * c.getBlue * c.getAlpha + 255) / 510 := by
    rw [DlColor.getBlue_eq]; simp only [DlColor.ofUInt32]; omega
  refine ⟨_, DlColor.premultipliedArgb_eq c h, er, eg, eb, ?_, ?_, ?_⟩
  · rw [er]
    have := DlColor.nearest_255 (c.getRed * c.getAlpha)
    rw [← mul_assoc] at this
    push_cast at this ⊢
    exact this
  · rw [eg]
    have := DlColor.nearest_255 (c.getGreen * c.getAlpha)
    rw [← mul_assoc] at this
    push_cast at this ⊢
    exact this
  · rw [eb]
    have := DlColor.nearest_255 (c.getBlue * c.getAlpha)
    rw [← mul_assoc] at this
    push_cast at this ⊢
    exact this

theorem premultipliedArgb_channels_nearest_witness :
    ∃ v : Nat, (DlColor.ofUInt32 0x80FF4001).premultipliedArgb = some v ∧
      (DlColor.ofUInt32 v).getRed
        = (2 * (DlColor.ofUInt32 0x80FF4001).getRed
            * (DlColor.ofUInt32 0x80FF4001).getAlpha + 255) / 510 ∧
      (DlColor.ofUInt32 v).getGreen
        = (2 * (DlColor.ofUInt32 0x80FF4001).getGreen
            * (DlColor.ofUInt32 0x80FF4001).getAlpha + 255) / 510 ∧
      (DlColor.ofUInt32 v).getBlue
        = (2 * (DlColor.ofUInt32 0x80FF4001).getBlue
            * (DlColor.ofUInt32 0x80FF4001).getAlpha + 255) / 510 ∧
      |((DlColor.ofUInt32 v).getRed : ℚ) - ((DlColor.ofUInt32 0x80FF4001).getRed : ℚ)
          * (DlColor.ofUInt32 0x80FF4001).getAlpha / 255| < 1 / 2 ∧
      |((DlColor.ofUInt32 v).getGreen : ℚ) - ((DlColor.ofUInt32 0x80FF4001).getGreen : ℚ)
          * (DlColor.ofUInt32 0x80FF4001).getAlpha / 255| < 1 / 2 ∧
      |((DlColor.ofUInt32 v).getBlue : ℚ) - ((DlColor.ofUInt32 0x80FF4001).getBlue : ℚ)
          * (DlColor.ofUInt32 0x80FF4001).getAlpha / 255| < 1 / 2 :=
  premultipliedArgb_channels_nearest (DlColor.ofUInt32 0x80FF4001) (by decide)

/-- The example of the specification: alpha 128 and red 255 premultiply to red 128. -/
theorem premultipliedArgb_example :
    (DlColor.ofUInt32 0x80FF4001).premultipliedArgb = some 0x80802001 := by decide

/-- C7: for a factor `<= 0` (in particular `0`, any negative number, or minus infinity)
`modulateOpacity` gives a colour with alpha exactly `0`, whatever the original alpha. -/
theorem modulateOpacity_nonpositive (c : DlColor) (f : DlScalar)
    (h : f.le (DlScalar.ofInt 0) = true) :
    ∃ c' : DlColor, c.modulateOpacity f = some c' ∧ c'.getAlpha = 0 := by
  refine ⟨c.withAlpha 0, ?_, (DlColor.withAlpha_channels c 0 (by norm_num)).1⟩
  simp [DlColor.modulateOpacity, h]

theorem modulateOpacity_nonpositive_witness :
    ∃ c' : DlColor, (DlColor.ofUInt32 0xC8102030).modulateOpacity (DlScalar.ofInt 0) = some c' ∧
      c'.getAlpha = 0 :=
  modulateOpacity_nonpositive (DlColor.ofUInt32 0xC8102030) (DlScalar.ofInt 0) (by decide)

/-- C8: for a factor `>= 1` (in particular `1`, or plus infinity) `modulateOpacity`
returns the colour itself. -/
theorem modulateOpacity_ge_one (c : DlColor) (f : DlScalar)
    (h : (DlScalar.ofInt 1).le f = true) :
    c.modulateOpacity f = some c := by
  have h0 : f.le (DlScalar.ofInt 0) = false := by
    cases f with
    | fin m e =>
      rw [DlScalar.one_le_iff] at h
      rw [Bool.eq_false_iff, Ne, DlScalar.le_zero_iff]
      intro hc
      linarith
    | inf neg =>
      rw [DlScalar.ofInt_one] at h
      rw [DlScalar.ofInt_zero]
      simp only [DlScalar.le] at h ⊢
      cases neg <;> simp_all
    | nan =>
      rw [DlScalar.ofInt_one] at h
      simp [DlScalar.le] at h
  simp [DlColor.modulateOpacity, h0, h]

theorem modulateOpacity_ge_one_witness :
    (DlColor.ofUInt32 0xC8102030).modulateOpacity (DlScalar.ofInt 1)
      = some (DlColor.ofUInt32 0xC8102030) :=
  modulateOpacity_ge_one (DlColor.ofUInt32 0xC8102030) (DlScalar.ofInt 1) (by decide)

/-- C9, as stated, fails: the factor `1082401 * 2 ^ (-26)` is a binary32 number strictly
between `0` and `1`, and on alpha `31` the exact product is just below one half, so
that `round(alpha * factor)` is `0`; but `modulateOpacity` yields alpha `1`, which is
at distance more than one half from the exact product. -/
theorem modulateOpacity_round_counterexample :
    (0 : ℚ) < (DlScalar.fin 1082401 (-26)).toRat ∧
    (DlScalar.fin 1082401 (-26)).toRat < 1 ∧
    roundFrac false 1082401 1 (-26) = DlScalar.fin (1082401 * 8) (-29) ∧
    (DlScalar.fin (1082401 * 8) (-29)).toRat = (DlScalar.fin 1082401 (-26)).toRat ∧
    (DlColor.ofUInt32 0x1F000000).getAlpha = 31 ∧
    ((DlColor.ofUInt32 0x1F000000).modulateOpacity (DlScalar.fin 1082401 (-26))).map
      DlColor.getAlpha = some 1 ∧
    ⌊(31 : ℚ) * (DlScalar.fin 1082401 (-26)).toRat + 1 / 2⌋ = 0 ∧
    round ((31 : ℚ) * (DlScalar.fin 1082401 (-26)).toRat) = 0 ∧
    (1 : ℚ) / 2 < |1 - (31 : ℚ) * (DlScalar.fin 1082401 (-26)).toRat| := by
  have hv : (DlScalar.fin 1082401 (-26)).toRat = 1082401 / 67108864 := by
    simp only [DlScalar.toRat]
    rw [zpow_neg]
    norm_num
  have hv2 : (DlScalar.fin (1082401 * 8) (-29)).toRat = 1082401 / 67108864 := by
    simp only [DlScalar.toRat]
    rw [zpow_neg]
    norm_num
  rw [hv2, hv]
  refine ⟨by norm_num, by norm_num, by decide, rfl, by decide, by decide, ?_, ?_, ?_⟩
  · rw [Int.floor_eq_iff]
    constructor <;> norm_num
  · rw [round_eq, Int.floor_eq_iff]
    constructor <;> norm_num
  · rw [abs_of_pos (by norm_num)]
    norm_num

/-- C9, amended: for a finite factor strictly between `0` and `1`, the alpha of
`modulateOpacity` is `round(p)` (halfway cases up), where `p` is the single-precision
product of alpha and factor; `p` is within `2 ^ (-17)` of the exact product, so the new
alpha is within `1 / 2 + 2 ^ (-17)` of `alpha * factor`, and it is exactly
`round(alpha * factor)` whenever the product is exact in single precision. -/
theorem modulateOpacity_between (c : DlColor) (m e : Int)
    (h0 : 0 < (DlScalar.fin m e).toRat) (h1 : (DlScalar.fin m e).toRat < 1) :
    ∃ (p : DlScalar) (n : Nat),
      (DlScalar.ofInt c.getAlpha).mul (DlScalar.fin m e) = p ∧
      |p.toRat - (c.getAlpha : ℚ) * (DlScalar.fin m e).toRat| ≤ 1 / 2 ^ 17 ∧
      (n : Int) = ⌊p.toRat + 1 / 2⌋ ∧
      n ≤ c.getAlpha ∧
      c.modulateOpacity (DlScalar.fin m e) = some (c.withAlpha n) ∧
      (c.withAlpha n).getAlpha = n ∧
      |(n : ℚ) - (c.getAlpha : ℚ) * (DlScalar.fin m e).toRat| ≤ 1 / 2 + 1 / 2 ^ 17 ∧
      (p.toRat = (c.getAlpha : ℚ) * (DlScalar.fin m e).toRat →
        (n : Int) = ⌊(c.getAlpha : ℚ) * (DlScalar.fin m e).toRat + 1 / 2⌋) := by
  obtain ⟨np, herr, -, hnle, hmod⟩ := DlColor.modulate_mid c m e h0 h1
  have hA := c.getAlpha_le
  have hp0 := np.toRat_nonneg
  set p := (DlScalar.ofInt c.getAlpha).mul (DlScalar.fin m e) with hp
  have hf0 : 0 ≤ ⌊p.toRat + 1 / 2⌋ := Int.floor_nonneg.mpr (by linarith)
  have hn : ((⌊p.toRat + 1 / 2⌋.toNat : Nat) : Int) = ⌊p.toRat + 1 / 2⌋ :=
    Int.toNat_of_nonneg hf0
  have hnq : ((⌊p.toRat + 1 / 2⌋.toNat : Nat) : ℚ) = (⌊p.toRat + 1 / 2⌋ : ℚ) := by
    rw [← Int.cast_natCast, hn]
  refine ⟨p, ⌊p.toRat + 1 / 2⌋.toNat, rfl, herr, hn, hnle, hmod,
    (DlColor.withAlpha_channels c _ (by omega)).1, ?_, ?_⟩
  · rw [hnq]
    have f1 := Int.floor_le (p.toRat + 1 / 2)
    have f2 := Int.lt_floor_add_one (p.toRat + 1 / 2)
    have := abs_le.mp herr
    rw [abs_le]
    constructor <;> linarith [this.1, this.2]
  · intro hex
    rw [hn, hex]

theorem modulateOpacity_between_witness :
    ∃ (p : DlScalar) (n : Nat),
      (DlScalar.ofInt (DlColor.ofUInt32 0xC8102030).getAlpha).mul (DlScalar.fin 1 (-1)) = p ∧
      |p.toRat - ((DlColor.ofUInt32 0xC8102030).getAlpha : ℚ) * (DlScalar.fin 1 (-1)).toRat|
        ≤ 1 / 2 ^ 17 ∧
      (n : Int) = ⌊p.toRat + 1 / 2⌋ ∧
      n ≤ (DlColor.ofUInt32 0xC8102030).getAlpha ∧
      (DlColor.ofUInt32 0xC8102030).modulateOpacity (DlScalar.fin 1 (-1))
        = some ((DlColor.ofUInt32 0xC8102030).withAlpha n) ∧
      ((DlColor.ofUInt32 0xC8102030).withAlpha n).getAlpha = n ∧
      |(n : ℚ) - ((DlColor.ofUInt32 0xC8102030).getAlpha : ℚ) * (DlScalar.fin 1 (-1)).toRat|
        ≤ 1 / 2 + 1 / 2 ^ 17 ∧
      (p.toRat = ((DlColor.ofUInt32 0xC8102030).getAlpha : ℚ) * (DlScalar.fin 1 (-1)).toRat →
        (n : Int) = ⌊((DlColor.ofUInt32 0xC8102030).getAlpha : ℚ)
          * (DlScalar.fin 1 (-1)).toRat + 1 / 2⌋) :=
  modulateOpacity_between (DlColor.ofUInt32 0xC8102030) 1 (-1)
    (by simp only [DlScalar.toRat]; rw [zpow_neg]; norm_num)
    (by simp only [DlScalar.toRat]; rw [zpow_neg]; norm_num)

/-- The example of the specification: the factor `0.5` on alpha `200` yields alpha `100`,
the other channels being kept. -/
theorem modulateOpacity_example :
    (DlColor.ofUInt32 0xC8102030).modulateOpacity (DlScalar.fin 1 (-1))
      = some (DlColor.ofUInt32 0x64102030) := by decide

/-- C10: `modulateOpacity` leaves red, green and blue untouched, for every factor that
is `<= 0`, strictly between `0` and `1`, or `>= 1`, that is for every factor other
than a NaN. -/
theorem modulateOpacity_keeps_rgb (c : DlColor) (f : DlScalar) (h : f ≠ DlScalar.nan) :
    ∃ c' : DlColor, c.modulateOpacity f = some c' ∧
      c'.getRed = c.getRed ∧ c'.getGreen = c.getGreen ∧ c'.getBlue = c.getBlue := by
  cases h0 : f.le (DlScalar.ofInt 0) with
  | true =>
    obtain ⟨-, w2, w3, w4⟩ := DlColor.withAlpha_channels c 0 (by norm_num)
    exact ⟨c.withAlpha 0, by simp [DlColor.modulateOpacity, h0], w2, w3, w4⟩
  | false =>
    cases h1 : (DlScalar.ofInt 1).le f with
    | true => exact ⟨c, by simp [DlColor.modulateOpacity, h0, h1], rfl, rfl, rfl⟩
    | false =>
      cases f with
      | nan => exact absurd rfl h
      | inf neg =>
        rw [DlScalar.ofInt_zero] at h0
        rw [DlScalar.ofInt_one] at h1
        simp only [DlScalar.le] at h0 h1
        cases neg <;> simp_all
      | fin m e =>
        have g0 : 0 < (DlScalar.fin m e).toRat := by
          rw [Bool.eq_false_iff, Ne, DlScalar.le_zero_iff] at h0
          exact not_le.mp h0
        have g1 : (DlScalar.fin m e).toRat < 1 := by
          rw [Bool.eq_false_iff, Ne, DlScalar.one_le_iff] at h1
          exact not_le.mp h1
        obtain ⟨-, -, -, hnle, hmod⟩ := DlColor.modulate_mid c m e g0 g1
        have hA := c.getAlpha_le
        obtain ⟨-, w2, w3, w4⟩ := DlColor.withAlpha_channels c
          ⌊((DlScalar.ofInt c.getAlpha).mul (DlScalar.fin m e)).toRat + 1 / 2⌋.toNat
          (by omega)
        exact ⟨_, hmod, w2, w3, w4⟩

theorem modulateOpacity_keeps_rgb_witness :
    ∃ c' : DlColor,
      (DlColor.ofUInt32 0xC8102030).modulateOpacity (DlScalar.fin 1 (-1)) = some c' ∧
      c'.getRed = (DlColor.ofUInt32 0xC8102030).getRed ∧
      c'.getGreen = (DlColor.ofUInt32 0xC8102030).getGreen ∧
      c'.getBlue = (DlColor.ofUInt32 0xC8102030).getBlue :=
  modulateOpacity_keeps_rgb (DlColor.ofUInt32 0xC8102030) (DlScalar.fin 1 (-1)) (by decide)

/-- C12: `RGBA(r, g, b, a)` and `ARGB(a, r, g, b)` give the same packed result (and are
undefined for the same arguments), for every four scalars. -/
theorem RGBA_eq_ARGB (a r g b : DlScalar) :
    DlColor.RGBA r g b a = DlColor.ARGB a r g b ∧
    (DlColor.RGBA r g b a).map DlColor.argb = (DlColor.ARGB a r g b).map DlColor.argb :=
  ⟨rfl, rfl⟩

/-- C14: the default constructor yields opaque black: the packed value is `0xFF000000`,
`isOpaque` holds, and the colour equals `kBlack`. -/
theorem default_is_opaque_black :
    DlColor.default.argb = 0xFF000000 ∧ DlColor.default.isOpaque = true ∧
    DlColor.default = DlColor.kBlack ∧ DlColor.default.eq DlColor.kBlack = true := by
  decide

/-- C15: `kTransparent` has alpha `0` and is transparent, `kWhite` packs to `0xFFFFFFFF`
and `kBlack` packs to `0xFF000000`. -/
theorem named_constants :
    DlColor.kTransparent.getAlpha = 0 ∧ DlColor.kTransparent.isTransparent = true ∧
    DlColor.kWhite.argb = 0xFFFFFFFF ∧ DlColor.kBlack.argb = 0xFF000000 := by
  decide

/-- C17: the premultiplied colour is a valid premultiplied colour: each of its red,
green and blue channels is at most its alpha channel and at most the corresponding
channel of the original colour, and a fully transparent colour premultiplies to `0`. -/
theorem premultipliedArgb_valid (c : DlColor) :
    ∃ v : Nat, c.premultipliedArgb = some v ∧
      (DlColor.ofUInt32 v).getRed ≤ (DlColor.ofUInt32 v).getAlpha ∧
      (DlColor.ofUInt32 v).getGreen ≤ (DlColor.ofUInt32 v).getAlpha ∧
      (DlColor.ofUInt32 v).getBlue ≤ (DlColor.ofUInt32 v).getAlpha ∧
      (DlColor.ofUInt32 v).getRed ≤ c.getRed ∧
      (DlColor.ofUInt32 v).getGreen ≤ c.getGreen ∧
      (DlColor.ofUInt32 v).getBlue ≤ c.getBlue ∧
      (c.getAlpha = 0 → v = 0) := by
  have hx := c.lt
  cases h : c.isOpaque with
  | true =>
    have hα : c.getAlpha = 255 := by simpa [DlColor.isOpaque] using h
    refine ⟨c.argb_, by simp [DlColor.premultipliedArgb, h], ?_, ?_, ?_, ?_, ?_, ?_, ?_⟩
    all_goals
      simp only [DlColor.getAlpha_eq, DlColor.getRed_eq, DlColor.getGreen_eq,
        DlColor.getBlue_eq, DlColor.ofUInt32] at hα ⊢
      omega
  | false =>
    have hA := c.getAlpha_le
    have hA' : c.getAlpha < 256 := by omega
    have hR := c.getRed_lt
    have hG := c.getGreen_lt
    have hB := c.getBlue_lt
    have hr := DlColor.premul_byte_lt c.getRed c.getAlpha hR hA'
    have hg := DlColor.premul_byte_lt c.getGreen c.getAlpha hG hA'
    have hb := DlColor.premul_byte_lt c.getBlue c.getAlpha hB hA'
    -- each premultiplied byte is at most the channel and at most alpha
    have key : ∀ x a : Nat, x < 256 → a < 256 →
        (2 * x * a + 255) / 510 ≤ a ∧ (2 * x * a + 255) / 510 ≤ x := by
      intro x a hx ha
      have h1 : x * a ≤ 255 * a := Nat.mul_le_mul_right a (by omega)
      have h2 : x * a ≤ x * 255 := Nat.mul_le_mul_left x (by omega)
      have e2 : 2 * x * a = 2 * (x * a) := by ring
      rw [e2]
      constructor <;> omega
    obtain ⟨r1, r2⟩ := key c.getRed c.getAlpha hR hA'
    obtain ⟨g1, g2⟩ := key c.getGreen c.getAlpha hG hA'
    obtain ⟨b1, b2⟩ := key c.getBlue c.getAlpha hB hA'
    obtain ⟨sa, sr, sg, sb⟩ := DlColor.channels_of_sum c.getAlpha _ _ _ hA' hr hg hb
    refine ⟨_, DlColor.premultipliedArgb_eq c h, ?_, ?_, ?_, ?_, ?_, ?_, ?_⟩
    · rw [sr, sa]; exact r1
    · rw [sg, sa]; exact g1
    · rw [sb, sa]; exact b1
    · rw [sr]; exact r2
    · rw [sg]; exact g2
    · rw [sb]; exact b2
    · intro h0
      rw [h0] at r1 g1 b1 ⊢
      omega

theorem premultipliedArgb_valid_witness :
    ∃ v : Nat, DlColor.kTransparent.premultipliedArgb = some v ∧
      (DlColor.ofUInt32 v).getRed ≤ (DlColor.ofUInt32 v).getAlpha ∧
      (DlColor.ofUInt32 v).getGreen ≤ (DlColor.ofUInt32 v).getAlpha ∧
      (DlColor.ofUInt32 v).getBlue ≤ (DlColor.ofUInt32 v).getAlpha ∧
      (DlColor.ofUInt32 v).getRed ≤ DlColor.kTransparent.getRed ∧
      (DlColor.ofUInt32 v).getGreen ≤ DlColor.kTransparent.getGreen ∧
      (DlColor.ofUInt32 v).getBlue ≤ DlColor.kTransparent.getBlue ∧
      (DlColor.kTransparent.getAlpha = 0 → v = 0) :=
  premultipliedArgb_valid DlColor.kTransparent

/-- C19: a byte survives the conversion to a normalized scalar and back:
`toAlpha(toOpacity(a)) = a` for every 8-bit `a`, and hence rebuilding a colour with
`ARGB` from its four normalized channels gives the colour itself. -/
theorem byte_scalar_roundtrip (c : DlColor) (a : Nat) (ha : a < 256) :
    DlColor.toAlpha (DlColor.toOpacity a) = some a ∧
    DlColor.ARGB c.getAlphaF c.getRedF c.getGreenF c.getBlueF = some c ∧
    (DlColor.ARGB c.getAlphaF c.getRedF c.getGreenF c.getBlueF).map (fun d => d.eq c)
      = some true := by
  have hA : c.getAlpha < 256 := by have := c.getAlpha_le; omega
  have hargb : DlColor.ARGB c.getAlphaF c.getRedF c.getGreenF c.getBlueF = some c := by
    simp only [DlColor.ARGB, DlColor.getAlphaF, DlColor.getRedF, DlColor.getGreenF,
      DlColor.getBlueF, DlColor.toC_toF _ hA, DlColor.toC_toF _ c.getRed_lt,
      DlColor.toC_toF _ c.getGreen_lt, DlColor.toC_toF _ c.getBlue_lt]
    simp only [Option.bind_eq_bind, Option.some_bind, Option.pure_def,
      DlColor.ofUInt32_pack_channels]
  refine ⟨DlColor.toC_toF a ha, hargb, ?_⟩
  rw [hargb]
  simp [DlColor.eq]

theorem byte_scalar_roundtrip_witness :
    DlColor.toAlpha (DlColor.toOpacity 200) = some 200 ∧
    DlColor.ARGB DlColor.kCornflowerBlue.getAlphaF DlColor.kCornflowerBlue.getRedF
      DlColor.kCornflowerBlue.getGreenF DlColor.kCornflowerBlue.getBlueF
        = some DlColor.kCornflowerBlue ∧
    (DlColor.ARGB DlColor.kCornflowerBlue.getAlphaF DlColor.kCornflowerBlue.getRedF
      DlColor.kCornflowerBlue.getGreenF DlColor.kCornflowerBlue.getBlueF).map
        (fun d => d.eq DlColor.kCornflowerBlue) = some true :=
  byte_scalar_roundtrip DlColor.kCornflowerBlue 200 (by decide)

/-- C20: the fast paths agree with the general expressions they bypass: on an opaque
colour the general premultiplication expression gives the packed value unchanged, as
the fast path does, and at the factors `0` and `1` the general expression
`withAlpha(round(alpha * factor))` gives the same colour as the saturating branches of
`modulateOpacity`. -/
theorem fast_paths_agree (c : DlColor) :
    (c.isOpaque = true →
      c.premultipliedArgbGeneral = c.premultipliedArgb ∧
      c.premultipliedArgbGeneral = some c.argb) ∧
    c.modulateOpacityGeneral (DlScalar.ofInt 0) = c.modulateOpacity (DlScalar.ofInt 0) ∧
    c.modulateOpacityGeneral (DlScalar.ofInt 1) = c.modulateOpacity (DlScalar.ofInt 1) := by
  have l00 : (DlScalar.ofInt 0).le (DlScalar.ofInt 0) = true := by decide
  have l10 : (DlScalar.ofInt 1).le (DlScalar.ofInt 0) = false := by decide
  have l11 : (DlScalar.ofInt 1).le (DlScalar.ofInt 1) = true := by decide
  refine ⟨?_, ?_, ?_⟩
  · intro h
    have hα : c.getAlpha = 255 := by simpa [DlColor.isOpaque] using h
    rw [DlColor.premultipliedArgbGeneral_opaque c hα]
    simp [DlColor.premultipliedArgb, h, DlColor.argb]
  · rw [DlColor.modulateOpacityGeneral_zero]
    simp [DlColor.modulateOpacity, l00]
  · rw [DlColor.modulateOpacityGeneral_one]
    simp [DlColor.modulateOpacity, l10, l11]

theorem fast_paths_agree_witness :
    (DlColor.kOrange.isOpaque = true →
      DlColor.kOrange.premultipliedArgbGeneral = DlColor.kOrange.premultipliedArgb ∧
      DlColor.kOrange.premultipliedArgbGeneral = some DlColor.kOrange.argb) ∧
    DlColor.kOrange.modulateOpacityGeneral (DlScalar.ofInt 0)
      = DlColor.kOrange.modulateOpacity (DlScalar.ofInt 0) ∧
    DlColor.kOrange.modulateOpacityGeneral (DlScalar.ofInt 1)
      = DlColor.kOrange.modulateOpacity (DlScalar.ofInt 1) :=
  fast_paths_agree DlColor.kOrange

/-- C11, as stated, fails: the scalar `196865 * 2 ^ (-18)` (about `0.75098`) is a
binary32 number in `[0, 1]` and `round(a * 255)` is `191`, the exact product being
`191.5 - 2 ^ (-18)`; but `ARGB(a, 0, 0, 0)` has alpha `192`, at distance more than one
half from the exact product, because the product is first rounded to the `float`
`191.5`. -/
theorem ARGB_round_counterexample :
    (DlScalar.fin 196865 (-18)).InUnit ∧ (DlScalar.fin 0 0).InUnit ∧
    (roundFrac false 196865 1 (-18)).toRat = (DlScalar.fin 196865 (-18)).toRat ∧
    (DlColor.ARGB (DlScalar.fin 196865 (-18)) (DlScalar.fin 0 0) (DlScalar.fin 0 0)
      (DlScalar.fin 0 0)).map DlColor.getAlpha = some 192 ∧
    ⌊(DlScalar.fin 196865 (-18)).toRat * 255 + 1 / 2⌋ = 191 ∧
    round ((DlScalar.fin 196865 (-18)).toRat * 255) = 191 ∧
    (1 : ℚ) / 2 < |192 - (DlScalar.fin 196865 (-18)).toRat * 255| := by
  have hv : (DlScalar.fin 196865 (-18)).toRat = 196865 / 262144 := by
    simp only [DlScalar.toRat]
    rw [zpow_neg]
    norm_num
  have hr : roundFrac false 196865 1 (-18) = DlScalar.fin 12599360 (-24) := by decide
  have hv2 : (DlScalar.fin 12599360 (-24)).toRat = 196865 / 262144 := by
    simp only [DlScalar.toRat]
    rw [zpow_neg]
    norm_num
  rw [hr, hv2, hv]
  refine ⟨⟨by simp [DlScalar.NonNeg], by rw [hv]; norm_num⟩,
    ⟨by simp [DlScalar.NonNeg], by simp [DlScalar.toRat]⟩, rfl, by decide, ?_, ?_, ?_⟩
  · rw [Int.floor_eq_iff]
    constructor <;> norm_num
  · rw [round_eq, Int.floor_eq_iff]
    constructor <;> norm_num
  · rw [abs_of_pos (by norm_num)]
    norm_num

/-- C11, amended: for scalars `a`, `r`, `g`, `b` in `[0, 1]`, `ARGB(a, r, g, b)` is the
colour whose alpha, red, green and blue channels are the bytes that `toC` gives for
`a`, `r`, `g` and `b`, each in its fixed byte; and the byte that `toC` gives for `x` is
`round(p)`, with `p` the single-precision product `x * 255` (see `RoundedChannel`). -/
theorem ARGB_unit (a r g b : DlScalar)
    (ha : a.InUnit) (hr : r.InUnit) (hg : g.InUnit) (hb : b.InUnit) :
    ∃ (na nr ng nb : Nat) (col : DlColor),
      DlColor.RoundedChannel a na ∧ DlColor.RoundedChannel r nr ∧
      DlColor.RoundedChannel g ng ∧ DlColor.RoundedChannel b nb ∧
      DlColor.ARGB a r g b = some col ∧
      col.argb = na * 16777216 + nr * 65536 + ng * 256 + nb ∧
      col.getAlpha = na ∧ col.getRed = nr ∧ col.getGreen = ng ∧ col.getBlue = nb := by
  obtain ⟨na, ca⟩ := DlColor.toC_unit a ha
  obtain ⟨nr, cr⟩ := DlColor.toC_unit r hr
  obtain ⟨ng, cg⟩ := DlColor.toC_unit g hg
  obtain ⟨nb, cb⟩ := DlColor.toC_unit b hb
  have la : na < 256 := by have := ca.2.1; omega
  have lr : nr < 256 := by have := cr.2.1; omega
  have lg : ng < 256 := by have := cg.2.1; omega
  have lb : nb < 256 := by have := cb.2.1; omega
  obtain ⟨sa, sr, sg, sb⟩ := DlColor.channels_of_sum na nr ng nb la lr lg lb
  refine ⟨na, nr, ng, nb, DlColor.ofUInt32 (na * 16777216 + nr * 65536 + ng * 256 + nb),
    ca, cr, cg, cb, ?_, ?_, sa, sr, sg, sb⟩
  · simp only [DlColor.ARGB, ca.1, cr.1, cg.1, cb.1]
    simp only [Option.bind_eq_bind, Option.some_bind, Option.pure_def, pack_eq na lr lg lb]
  · simp only [DlColor.argb, DlColor.ofUInt32]
    omega

theorem ARGB_unit_witness :
    ∃ (na nr ng nb : Nat) (col : DlColor),
      DlColor.RoundedChannel (DlScalar.fin 1 0) na ∧
      DlColor.RoundedChannel (DlScalar.fin 1 (-1)) nr ∧
      DlColor.RoundedChannel (DlScalar.fin 0 0) ng ∧
      DlColor.RoundedChannel (DlScalar.fin 1 (-2)) nb ∧
      DlColor.ARGB (DlScalar.fin 1 0) (DlScalar.fin 1 (-1)) (DlScalar.fin 0 0)
        (DlScalar.fin 1 (-2)) = some col ∧
      col.argb = na * 16777216 + nr * 65536 + ng * 256 + nb ∧
      col.getAlpha = na ∧ col.getRed = nr ∧ col.getGreen = ng ∧ col.getBlue = nb :=
  ARGB_unit (DlScalar.fin 1 0) (DlScalar.fin 1 (-1)) (DlScalar.fin 0 0) (DlScalar.fin 1 (-2))
    ⟨by simp [DlScalar.NonNeg], by simp [DlScalar.toRat]⟩
    ⟨by simp [DlScalar.NonNeg], by simp only [DlScalar.toRat]; rw [zpow_neg]; norm_num⟩
    ⟨by simp [DlScalar.NonNeg], by simp [DlScalar.toRat]⟩
    ⟨by simp [DlScalar.NonNeg], by simp only [DlScalar.toRat]; rw [zpow_neg]; norm_num⟩

/-- An evaluation of `ARGB`: the scalars `1`, `0.5`, `0` and `0.25` give the bytes
`255`, `128`, `0` and `64`. -/
theorem ARGB_example :
    DlColor.ARGB (DlScalar.fin 1 0) (DlScalar.fin 1 (-1)) (DlScalar.fin 0 0)
      (DlScalar.fin 1 (-2)) = some (DlColor.ofUInt32 0xFF800040) := by decide

/-- C13, as stated, fails for the normalized accessors: for the blue channel `3` the
scalar returned by `getBlueF` is `12632258 * 2 ^ (-30)`, which is neither the number
`3 / 255` nor the `float` quotient `3 / 255` (that is `12632257 * 2 ^ (-30)`). -/
theorem getBlueF_counterexample :
    (DlColor.ofUInt32 0xFF000003).getBlue = 3 ∧
    (DlColor.ofUInt32 0xFF000003).getBlueF = DlScalar.fin 12632258 (-30) ∧
    (DlScalar.ofInt 3).div (DlScalar.ofInt 255) = DlScalar.fin 12632257 (-30) ∧
    (DlColor.ofUInt32 0xFF000003).getBlueF.toRat ≠ (3 : ℚ) / 255 ∧
    (DlColor.ofUInt32 0xFF000003).getBlueF.toRat
      ≠ ((DlScalar.ofInt 3).div (DlScalar.ofInt 255)).toRat := by
  have h1 : (DlColor.ofUInt32 0xFF000003).getBlueF = DlScalar.fin 12632258 (-30) := by decide
  have h2 : (DlScalar.ofInt 3).div (DlScalar.ofInt 255) = DlScalar.fin 12632257 (-30) := by
    decide
  refine ⟨by decide, h1, h2, ?_, ?_⟩
  · rw [h1]
    simp only [DlScalar.toRat]
    rw [zpow_neg]
    norm_num
  · rw [h1, h2]
    simp only [DlScalar.toRat]
    rw [zpow_neg]
    norm_num

/-- C13, amended: for every colour the four integer accessors return a value in
`0 .. 255`, and the four normalized accessors return a finite scalar in `[0, 1]`, the
single-precision product of the channel and the `float` nearest to `1 / 255`; it
differs from `channel / 255` by at most `channel / 255 * 2 ^ (-23)`, and is exactly `0`
for the channel `0` and exactly `1` for the channel `255`. -/
theorem channel_ranges (c : DlColor) :
    (c.getAlpha ≤ 255 ∧ c.getRed ≤ 255 ∧ c.getGreen ≤ 255 ∧ c.getBlue ≤ 255) ∧
    (c.getAlphaF.InUnit ∧ 0 ≤ c.getAlphaF.toRat ∧
      |c.getAlphaF.toRat - (c.getAlpha : ℚ) / 255| ≤ (c.getAlpha : ℚ) / 255 / 2 ^ 23) ∧
    (c.getRedF.InUnit ∧ 0 ≤ c.getRedF.toRat ∧
      |c.getRedF.toRat - (c.getRed : ℚ) / 255| ≤ (c.getRed : ℚ) / 255 / 2 ^ 23) ∧
    (c.getGreenF.InUnit ∧ 0 ≤ c.getGreenF.toRat ∧
      |c.getGreenF.toRat - (c.getGreen : ℚ) / 255| ≤ (c.getGreen : ℚ) / 255 / 2 ^ 23) ∧
    (c.getBlueF.InUnit ∧ 0 ≤ c.getBlueF.toRat ∧
      |c.getBlueF.toRat - (c.getBlue : ℚ) / 255| ≤ (c.getBlue : ℚ) / 255 / 2 ^ 23) ∧
    (DlColor.toF 0).toRat = 0 ∧ (DlColor.toF 255).toRat = 1 := by
  have hA := c.getAlpha_le
  have hR := c.getRed_lt
  have hG := c.getGreen_lt
  have hB := c.getBlue_lt
  have key : ∀ x : Nat, x < 256 →
      (DlColor.toF x).InUnit ∧ 0 ≤ (DlColor.toF x).toRat ∧
      |(DlColor.toF x).toRat - (x : ℚ) / 255| ≤ (x : ℚ) / 255 / 2 ^ 23 := by
    intro x hx
    obtain ⟨n, l, e⟩ := DlColor.toF_range x hx
    exact ⟨⟨n, l⟩, n.toRat_nonneg, e⟩
  refine ⟨⟨hA, by omega, by omega, by omega⟩, key _ (by omega), key _ hR, key _ hG,
    key _ hB, ?_, ?_⟩
  · rw [DlColor.toF_zero]
    simp [DlScalar.toRat]
  · rw [DlColor.toF_255]
    simp only [DlScalar.toRat]
    norm_num

/-- Arguments for which C++ does not define the conversion to `uint8_t`: a channel
value or an opacity outside `[0, 1]` can make the rounded product fall outside
`0 .. 255`, and a NaN stays a NaN; so the language defines no result for
`ARGB(2, 0, 0, 0)`, `RGBA(0, 0, 0, 2)`, `toAlpha(2)`, `toAlpha(-1)` and
`modulateOpacity(NaN)`. -/
theorem undefined_conversions :
    DlColor.ARGB (DlScalar.ofInt 2) (DlScalar.ofInt 0) (DlScalar.ofInt 0) (DlScalar.ofInt 0)
      = none ∧
    DlColor.RGBA (DlScalar.ofInt 0) (DlScalar.ofInt 0) (DlScalar.ofInt 0) (DlScalar.ofInt 2)
      = none ∧
    DlColor.toAlpha (DlScalar.ofInt 2) = none ∧
    DlColor.toAlpha (DlScalar.ofInt (-1)) = none ∧
    ((DlScalar.ofInt 2).mul (DlScalar.ofInt 255)).round = DlScalar.fin 510 0 ∧
    DlColor.kWhite.modulateOpacity DlScalar.nan = none := by
  decide

/-- Arguments for which C++ defines the result of every conversion: `premultipliedArgb`
on every colour, `modulateOpacity` on every colour and every factor that is not a NaN
(factors outside `[0, 1]` included), and `ARGB`, `RGBA` and `toAlpha` on scalars in
`[0, 1]`. -/
theorem operations_defined (c : DlColor) (f a r g b : DlScalar) (hf : f ≠ DlScalar.nan)
    (ha : a.InUnit) (hr : r.InUnit) (hg : g.InUnit) (hb : b.InUnit) :
    (∃ v : Nat, c.premultipliedArgb = some v) ∧
    (∃ d : DlColor, c.modulateOpacity f = some d) ∧
    (∃ d : DlColor, DlColor.ARGB a r g b = some d) ∧
    (∃ d : DlColor, DlColor.RGBA r g b a = some d) ∧
    (∃ n : Nat, DlColor.toAlpha a = some n) := by
  obtain ⟨na, ca⟩ := DlColor.toC_unit a ha
  obtain ⟨nr, cr⟩ := DlColor.toC_unit r hr
  obtain ⟨ng, cg⟩ := DlColor.toC_unit g hg
  obtain ⟨nb, cb⟩ := DlColor.toC_unit b hb
  have hargb : ∃ d : DlColor, DlColor.ARGB a r g b = some d := by
    refine ⟨DlColor.ofUInt32 (na <<< 24 ||| nr <<< 16 ||| ng <<< 8 ||| nb), ?_⟩
    simp only [DlColor.ARGB, ca.1, cr.1, cg.1, cb.1]
    simp only [Option.bind_eq_bind, Option.some_bind, Option.pure_def]
  refine ⟨?_, ?_, hargb, hargb, ⟨na, ca.1⟩⟩
  · cases h : c.isOpaque with
    | true => exact ⟨c.argb_, by simp [DlColor.premultipliedArgb, h]⟩
    | false => exact ⟨_, DlColor.premultipliedArgb_eq c h⟩
  · obtain ⟨n, -, h⟩ := DlColor.modulateOpacity_defined c f hf
    exact ⟨_, h⟩

theorem operations_defined_witness :
    (∃ v : Nat, DlColor.kSkyBlue.premultipliedArgb = some v) ∧
    (∃ d : DlColor, DlColor.kSkyBlue.modulateOpacity (DlScalar.ofInt 3) = some d) ∧
    (∃ d : DlColor, DlColor.ARGB (DlScalar.fin 1 0) (DlScalar.fin 1 (-1)) (DlScalar.fin 0 0)
      (DlScalar.fin 1 (-2)) = some d) ∧
    (∃ d : DlColor, DlColor.RGBA (DlScalar.fin 1 (-1)) (DlScalar.fin 0 0) (DlScalar.fin 1 (-2))
      (DlScalar.fin 1 0) = some d) ∧
    (∃ n : Nat, DlColor.toAlpha (DlScalar.fin 1 0) = some n) :=
  operations_defined DlColor.kSkyBlue (DlScalar.ofInt 3) (DlScalar.fin 1 0)
    (DlScalar.fin 1 (-1)) (DlScalar.fin 0 0) (DlScalar.fin 1 (-2)) (by decide)
    ⟨by simp [DlScalar.NonNeg], by simp [DlScalar.toRat]⟩
    ⟨by simp [DlScalar.NonNeg], by simp only [DlScalar.toRat]; rw [zpow_neg]; norm_num⟩
    ⟨by simp [DlScalar.NonNeg], by simp [DlScalar.toRat]⟩
    ⟨by simp [DlScalar.NonNeg], by simp only [DlScalar.toRat]; rw [zpow_neg]; norm_num⟩

/-- C18, amended: `modulateOpacity` never increases opacity and is monotone in the
factor: for every factor that is not a NaN the new alpha is at most the old one, and
for factors `f1 <= f2` the alpha obtained with `f1` is at most the one obtained with
`f2`. -/
theorem modulateOpacity_monotone (c : DlColor) (f1 f2 : DlScalar)
    (h1 : f1 ≠ DlScalar.nan) :
    (∃ d : DlColor, c.modulateOpacity f1 = some d ∧ d.getAlpha ≤ c.getAlpha) ∧
    (f1.le f2 = true →
      ∃ d1 d2 : DlColor, c.modulateOpacity f1 = some d1 ∧ c.modulateOpacity f2 = some d2 ∧
        d1.getAlpha ≤ d2.getAlpha) := by
  have hA := c.getAlpha_le
  constructor
  · obtain ⟨n, hn, hm⟩ := DlColor.modulateOpacity_defined c f1 h1
    refine ⟨_, hm, ?_⟩
    rw [(DlColor.withAlpha_channels c n (by omega)).1]
    exact hn
  · intro hle
    obtain ⟨n1, n2, h12, h2, m1, m2⟩ := DlColor.modulate_alpha_mono c f1 f2 hle
    refine ⟨_, _, m1, m2, ?_⟩
    rw [(DlColor.withAlpha_channels c n1 (by omega)).1,
      (DlColor.withAlpha_channels c n2 (by omega)).1]
    exact h12

theorem modulateOpacity_monotone_witness :
    (∃ d : DlColor, DlColor.kSkyBlue.modulateOpacity (DlScalar.fin 1 (-2)) = some d ∧
      d.getAlpha ≤ DlColor.kSkyBlue.getAlpha) ∧
    ((DlScalar.fin 1 (-2)).le (DlScalar.fin 1 (-1)) = true →
      ∃ d1 d2 : DlColor, DlColor.kSkyBlue.modulateOpacity (DlScalar.fin 1 (-2)) = some d1 ∧
        DlColor.kSkyBlue.modulateOpacity (DlScalar.fin 1 (-1)) = some d2 ∧
        d1.getAlpha ≤ d2.getAlpha) :=
  modulateOpacity_monotone DlColor.kSkyBlue (DlScalar.fin 1 (-2)) (DlScalar.fin 1 (-1))
    (by decide)

/-- An evaluation of the monotonicity: the factors `0.25 <= 0.5` on alpha `255` give
the alphas `64 <= 128`. -/
theorem modulateOpacity_monotone_example :
    (DlScalar.fin 1 (-2)).le (DlScalar.fin 1 (-1)) = true ∧
    (DlColor.kSkyBlue.modulateOpacity (DlScalar.fin 1 (-2))).map DlColor.getAlpha = some 64 ∧
    (DlColor.kSkyBlue.modulateOpacity (DlScalar.fin 1 (-1))).map DlColor.getAlpha
      = some 128 := by
  decide

/-- An evaluation on out-of-range arguments with the wrap-around conversion: the
opacity `2` gives the byte `510 mod 256 = 254` and no clamping to `255`, the opacity
`-1` gives the byte `1`, `ARGB(2, 0, 0, 0)` has alpha `254`, and `modulateOpacity(NaN)`
keeps red, green and blue and has alpha `0`. -/
theorem operations_total_example :
    DlColor.toAlphaOn DlScalar.wrapConv (DlScalar.ofInt 2) = 254 ∧
    DlColor.toAlphaOn DlScalar.wrapConv (DlScalar.ofInt (-1)) = 1 ∧
    DlColor.ARGBOn DlScalar.wrapConv (DlScalar.ofInt 2) (DlScalar.ofInt 0) (DlScalar.ofInt 0)
      (DlScalar.ofInt 0) = DlColor.ofUInt32 0xFE000000 ∧
    DlColor.kSkyBlue.modulateOpacityOn DlScalar.wrapConv DlScalar.nan
      = DlColor.ofUInt32 0x0087CEEB := by
  decide

/-- C18, as stated, fails for a factor that is a NaN: neither `NaN <= 0` nor `NaN >= 1`
holds, so `modulateOpacity` converts the NaN `round(alpha * NaN)` to `uint8_t`, for
which C++ defines no result: there is no new alpha to compare with the old one. In a
build the new alpha is the low 8 bits of the underlying conversion of the NaN, on
which the source puts no bound: with a conversion that gives `255` the alpha `10`
becomes `255`. -/
theorem modulateOpacity_nan_counterexample :
    DlColor.kWhite.modulateOpacity DlScalar.nan = none ∧
    (¬ ∃ d : DlColor, DlColor.kWhite.modulateOpacity DlScalar.nan = some d ∧
      d.getAlpha ≤ DlColor.kWhite.getAlpha) ∧
    (DlColor.ofUInt32 0x0A102030).getAlpha = 10 ∧
    (DlColor.ofUInt32 0x0A102030).modulateOpacity DlScalar.nan = none ∧
    ((DlColor.ofUInt32 0x0A102030).modulateOpacityOn (fun _ => 255) DlScalar.nan).getAlpha
      = 255 := by
  have h : DlColor.kWhite.modulateOpacity DlScalar.nan = none := by decide
  refine ⟨h, ?_, by decide, by decide, by decide⟩
  rintro ⟨d, hd, -⟩
  rw [h] at hd
  exact absurd hd (by simp)

end flutter
